import Mathlib

/-!
Verification of the TRSilver ID-remapping and referential-integrity engine.

The definitions below are a shallow embedding of the Python sources
`scripts/convert_to_athena_format.py` and `scripts/validate_patient.py`:
strings are modelled as `List Char`, Python dicts as insertion-ordered
association lists, and the run-specific random draws of the allocator as an
oracle function supplied as a parameter.
-/

set_option maxRecDepth 8000

abbrev Str := List Char

/-- Fuel-indexed version of `countOccs`; the fuel only forces structural
recursion and is irrelevant once it is at least the length of the string. -/
def countOccsF (k : Str) : Nat → Str → Nat
  | 0, _ => 0
  | _ + 1, [] => 0
  | fuel + 1, c :: rest =>
    if k.isPrefixOf (c :: rest) ∧ k ≠ [] then
      countOccsF k fuel ((c :: rest).drop k.length) + 1
    else
      countOccsF k fuel rest

/-- Python `str.count(sub)`: number of non-overlapping occurrences, scanning
left to right greedily.  Python returns `len+1` for the empty substring; the
sources never look up an empty token, and this model counts 0 for `k = []`. -/
def countOccs (k s : Str) : Nat :=
  countOccsF k s.length s

/-- Fuel-indexed version of `listReplace`. -/
def listReplaceF (k v : Str) : Nat → Str → Str
  | 0, s => s
  | _ + 1, [] => []
  | fuel + 1, c :: rest =>
    if k.isPrefixOf (c :: rest) ∧ k ≠ [] then
      v ++ listReplaceF k v fuel ((c :: rest).drop k.length)
    else
      c :: listReplaceF k v fuel rest

/-- Python `str.replace(old, new)`: replace each non-overlapping occurrence,
scanning left to right greedily.  For `old = []` (never produced by the
sources) this model is the identity. -/
def listReplace (k v s : Str) : Str :=
  listReplaceF k v s.length s

/-- Whether a token begins with the synthetic marker character `'t'`
(Python `uuid.startswith('t')`). -/
def startsWithT : Str → Bool
  | 't' :: _ => true
  | _ => false

/-- One substitution step of `process_ccda_xml`: Python's
`count = xml_content.count(uuid); if count > 0: xml_content = xml_content.replace(uuid, alphanumeric_id)`. -/
def xmlReplaceStep (s : Str) (p : Str × Str) : Str :=
  if countOccs p.1 s > 0 then listReplace p.1 p.2 s else s

/-- The UUID-substitution loop of `process_ccda_xml` (convert script, lines
2088-2100): iterate over the mapping entries in insertion order; skip keys
beginning with `'t'`; for the rest, when the key occurs in the serialized
document, replace every occurrence by the assigned identifier. -/
def processXml (es : List (Str × Str)) (s : Str) : Str :=
  es.foldl (fun acc p => if startsWithT p.1 then acc else xmlReplaceStep acc p) s

def c2wk : Str := "abcdefab-cdef-abcd-efab-cdefabcdefab".toList

def c2wv : Str := "t42".toList

def c2ws : Str := "<id root=abcdefab-cdef-abcd-efab-cdefabcdefab/>".toList

def c2ck : Str := "10100000-0000-0000-0000-000000000000".toList

def c2cv : Str := "t10100000".toList

def c2cs : Str := "10100000-0000-0000-0000-000000000000-0000-0000-0000-000000000000".toList

/-! ## The Identifier Allocator and Document UUID Index
(`build_uuid_mapping`, convert script lines 156-289) -/

structure Identifier where
  system : Option Str
  value : Option Str
  deriving DecidableEq

structure Resource where
  resourceType : Option Str
  id : Option Str
  identifier : List Identifier
  deriving DecidableEq

structure Request where
  method : Option Str
  url : Option Str
  deriving DecidableEq

structure Entry where
  resource : Resource
  request : Option Request
  fullUrl : Option Str
  deriving DecidableEq

/-- The `ID_RANGES` table of the convert script (lines 39-70). -/
def ID_RANGES : List (Str × Nat × Nat) :=
  [ ("Patient".toList, 10000000, 10000000),
    ("Encounter".toList, 10100000, 19999999),
    ("Condition".toList, 20000000, 39999999),
    ("Observation".toList, 40000000, 99999999),
    ("DiagnosticReport".toList, 100000000, 119999999),
    ("MedicationRequest".toList, 120000000, 139999999),
    ("Procedure".toList, 140000000, 159999999),
    ("DocumentReference".toList, 160000000, 179999999),
    ("Immunization".toList, 180000000, 189999999),
    ("CarePlan".toList, 190000000, 199999999),
    ("Goal".toList, 200000000, 209999999),
    ("AllergyIntolerance".toList, 210000000, 219999999),
    ("Binary".toList, 220000000, 239999999),
    ("Media".toList, 240000000, 249999999),
    ("ImagingStudy".toList, 250000000, 259999999),
    ("Claim".toList, 260000000, 279999999),
    ("ExplanationOfBenefit".toList, 280000000, 299999999),
    ("Provenance".toList, 300000000, 319999999),
    ("Composition".toList, 320000000, 339999999),
    ("CareTeam".toList, 340000000, 349999999),
    ("Medication".toList, 350000000, 369999999),
    ("MedicationAdministration".toList, 370000000, 389999999),
    ("MedicationStatement".toList, 390000000, 409999999),
    ("Practitioner".toList, 500000000, 599999999),
    ("PractitionerRole".toList, 600000000, 699999999),
    ("Organization".toList, 700000000, 799999999),
    ("Location".toList, 800000000, 899999999) ]

/-- `resource_type in ID_RANGES` / `ID_RANGES[resource_type]`. -/
def rangesFind (t : Str) : Option (Nat × Nat) :=
  (ID_RANGES.find? (fun p => p.1 = t)).map (fun p => p.2)

/-- The `ID_PREFIXES` table (lines 74-102): every configured type is prefixed
with `'t'`; `ID_PREFIXES.get(resource_type, 'x')` falls back to `'x'`. -/
def prefixGet (t : Str) : Str :=
  if (rangesFind t).isSome then "t".toList else "x".toList

/-- Python `str.isdigit()`: nonempty and all digits. -/
def isdigitStr (s : Str) : Bool := !s.isEmpty && s.all Char.isDigit

/-- Python `str(n)` for a natural number. -/
def natToStr (n : Nat) : Str := (Nat.repr n).toList

/-- Insertion-ordered dictionary lookup (`uuid_map[key]`). -/
def dictLookup : List (Str × Str × Str) → Str → Option (Str × Str)
  | [], _ => none
  | p :: rest, key => if p.1 = key then some p.2 else dictLookup rest key

/-- Python `key in uuid_map`. -/
def dictMem (m : List (Str × Str × Str)) (key : Str) : Bool :=
  (dictLookup m key).isSome

/-- Python `uuid_map[key] = val`: overwrite in place, else append. -/
def dictSet : List (Str × Str × Str) → Str → Str × Str → List (Str × Str × Str)
  | [], key, val => [(key, val)]
  | p :: rest, key, val =>
    if p.1 = key then (key, val) :: rest else p :: dictSet rest key val

/-- Python `all_used_ids.add(n)` (a set). -/
def addUsed (used : List Nat) (n : Nat) : List Nat :=
  if n ∈ used then used else used ++ [n]

/-- The linear-probing loop (lines 248-256): try
`start + ((offset + attempt) % sz)` for `attempt = 0, 1, ...` until a value
not globally used is found; `none` once all `sz` attempts are exhausted. -/
def probe (used : List Nat) (lo sz offset : Nat) : Nat → Nat → Option Nat
  | 0, _ => none
  | fuel + 1, attempt =>
    let t := lo + (offset + attempt) % sz
    if t ∈ used then probe used lo sz offset fuel (attempt + 1) else some t

/-- State threaded through `build_uuid_mapping`: the mapping dict, the global
`all_used_ids` set, and (for specification purposes) the trace of issued
`(resource_type, numeric_value)` pairs in order. -/
structure BState where
  uuidMap : List (Str × Str × Str)
  allUsed : List Nat
  trace : List (Str × Nat)
  deriving DecidableEq

/-- Lines 275-283: add one identifier's value as a secondary key, only when
truthy and not already a key of the map (`if value and value not in uuid_map`). -/
def identStep (aid rt : Str) (m : List (Str × Str × Str)) (i : Identifier) :
    List (Str × Str × Str) :=
  let value := i.value.getD []
  if value ≠ [] ∧ dictMem m value = false then dictSet m value (aid, rt) else m

/-- Lines 263-283: build the alphanumeric id, record `uuid_map[resource_id]`
(unconditionally), and add each truthy identifier value that is not already a
key of the map. -/
def recordAlloc (st : BState) (rt rid : Str) (numeric : Nat)
    (idents : List Identifier) : BState :=
  let aid := prefixGet rt ++ natToStr numeric
  let m1 := dictSet st.uuidMap rid (aid, rt)
  let m2 := idents.foldl (identStep aid rt) m1
  { uuidMap := m2, allUsed := addUsed st.allUsed numeric,
    trace := st.trace ++ [(rt, numeric)] }

/-- Processing of one bundle entry by `build_uuid_mapping` (lines 204-283).
`draw` is the oracle for `resource_rng.randint(0, end_range - start_range)`;
its value is reduced mod the range size, which ranges over exactly the values
`randint` can produce. -/
def processEntry (base : Nat) (draw : Nat) (st : BState) (e : Entry) :
    Except Str BState :=
  match e.resource.resourceType, e.resource.id with
  | some rt, some rid =>
    if rt = [] ∨ rid = [] then .ok st
    else if isdigitStr rid then .ok st
    else
      match rangesFind rt with
      | none => .ok st
      | some (lo, hi) =>
        if rt = "Patient".toList then
          .ok (recordAlloc st rt rid base e.resource.identifier)
        else
          let sz := hi - lo + 1
          let offset := draw % sz
          match probe st.allUsed lo sz offset sz 0 with
          | none => .error ("ID range exhausted for ".toList ++ rt)
          | some n => .ok (recordAlloc st rt rid n e.resource.identifier)
  | _, _ => .ok st

def buildGo (base : Nat) (draw : Nat → Nat) : Nat → BState → List Entry → Except Str BState
  | _, st, [] => .ok st
  | i, st, e :: rest =>
    match processEntry base (draw i) st e with
    | .error m => .error m
    | .ok st' => buildGo base draw (i + 1) st' rest

/-- `build_uuid_mapping(bundle, base_patient_id)`, with the per-resource
random draws supplied by the oracle `draw`. -/
def buildUuidMapping (base : Nat) (draw : Nat → Nat) (bundle : List Entry) :
    Except Str BState :=
  buildGo base draw 0 ⟨[], [], []⟩ bundle

def patientStr : Str := "Patient".toList

/-- Scan of an issuance trace: every numeric value issued on the allocation
path (resource type other than `Patient`) must differ from every value issued
earlier, of any type; the `Patient` value is only recorded. -/
def traceFreshAux : List Nat → List (Str × Nat) → Bool
  | _, [] => true
  | seen, (t, n) :: rest =>
    if t = patientStr then traceFreshAux (n :: seen) rest
    else if n ∈ seen then false
    else traceFreshAux (n :: seen) rest

def traceFreshB (tr : List (Str × Nat)) : Bool := traceFreshAux [] tr

def exhaustMsgStart : Str := "ID range exhausted for ".toList

/-- The abort message names an entity type that has a configured range. -/
def isExhaustMsg (m : Str) : Bool :=
  exhaustMsgStart.isPrefixOf m && (rangesFind (m.drop exhaustMsgStart.length)).isSome

def allocFreshOk : Except Str BState → Bool
  | .ok st => traceFreshB st.trace
  | .error m => isExhaustMsg m

/-- The issued numeric value lies inside its type's configured range. -/
def inConfiguredRange (p : Str × Nat) : Bool :=
  match rangesFind p.1 with
  | some (lo, hi) => decide (lo ≤ p.2) && decide (p.2 ≤ hi)
  | none => false

def traceRangeOk (tr : List (Str × Nat)) : Bool :=
  tr.all (fun p => decide (p.1 = patientStr) || inConfiguredRange p)

def allocRangeOk : Except Str BState → Bool
  | .ok st => traceRangeOk st.trace
  | .error _ => true

/-- Invariant carried through `build_uuid_mapping`: the trace's numeric
values are all registered in `all_used_ids`, allocation-path values are
globally fresh, and allocation-path values lie in their configured range. -/
def allocInv (st : BState) : Prop :=
  (∀ n ∈ st.trace.map Prod.snd, n ∈ st.allUsed) ∧
    traceFreshB st.trace = true ∧ traceRangeOk st.trace = true

def drawZero : Nat → Nat := fun _ => 0

def drawOne : Nat → Nat := fun _ => 1

/-- The claim C1 as stated: every issued numeric value, the `Patient` one
included, is fresh, or the run aborts with an exhaustion error. -/
def c1ClaimHolds : Except Str BState → Bool
  | .ok st => decide ((st.trace.map Prod.snd).Nodup)
  | .error m => isExhaustMsg m

def c1CexBundle : List Entry :=
  [ ⟨⟨some "Encounter".toList, some "e1-x".toList, []⟩, none, none⟩,
    ⟨⟨some "Patient".toList, some "p1-x".toList, []⟩, none, none⟩ ]

/-- The claim C6 as stated: every issued identifier's numeric value, the
`Patient` one included, lies in its type's configured range. -/
def c6ClaimHolds : Except Str BState → Bool
  | .ok st => st.trace.all inConfiguredRange
  | .error _ => true

def c6CexBundle : List Entry :=
  [ ⟨⟨some "Patient".toList, some "p1-x".toList, []⟩, none, none⟩ ]

def c3CexBundle : List Entry :=
  [ ⟨⟨some "Encounter".toList, some "t10100000".toList, []⟩, none, none⟩ ]

/-- The claim C3 as stated, at one input: indexing a document set whose only
entity already carries the synthetic allocator-issued identifier `t10100000`
is supposed to skip it and produce no mapping. -/
def c3ClaimHolds : Except Str BState → Bool
  | .ok st => decide (st.uuidMap = [])
  | .error _ => false

deriving instance DecidableEq for Except

def c7St0 : BState :=
  ⟨[("aaa".toList, ("t1".toList, "Claim".toList))], [1], [("Claim".toList, 1)]⟩

def c7Entry : Entry := ⟨⟨some "Claim".toList, some "bbb".toList, []⟩, none, none⟩

def c7Run : Except Str BState := processEntry 995000 0 c7St0 c7Entry

def c7St1 : BState :=
  match c7Run with
  | .ok st => st
  | .error _ => ⟨[], [], []⟩

def c7CexEntry : Entry := ⟨⟨some "Claim".toList, some "dup-1".toList, []⟩, none, none⟩

/-- The binding of the key `dup-1` after a run. -/
def c7BindingOf (r : Except Str BState) : Option (Str × Str) :=
  match r with
  | .ok st => dictLookup st.uuidMap "dup-1".toList
  | .error _ => none

/-! ## `convert_all_ids` (convert script lines 292-321) -/

/-- Python f-string rendering of a possibly missing value
(`f"{resource_type}"` prints `None` when the field is absent). -/
def pyFmtOpt (o : Option Str) : Str :=
  match o with
  | some t => t
  | none => "None".toList

/-- Processing of one entry by `convert_all_ids`: rewrite the resource id
from the mapping; flip a POST request to PUT with the id embedded in the
URL; drop the `fullUrl` correlation handle. -/
def convertEntry (um : List (Str × Str × Str)) (e : Entry) : Entry :=
  match e.resource.id with
  | none => e
  | some rid =>
    match dictLookup um rid with
    | none => e
    | some (nid, _) =>
      let r' := { e.resource with id := some nid }
      let req' :=
        match e.request with
        | none => none
        | some req =>
          if req.method = some ("POST".toList) then
            some { req with
                    method := some ("PUT".toList)
                    url := some (pyFmtOpt e.resource.resourceType ++ '/' :: nid) }
          else some req
      { resource := r', request := req', fullUrl := none }

def convertAllIds (um : List (Str × Str × Str)) (bundle : List Entry) : List Entry :=
  bundle.map (convertEntry um)

def c8Um : List (Str × Str × Str) :=
  [("u-77".toList, ("t123".toList, "Observation".toList))]

def c8Req : Request := ⟨some "POST".toList, some "Observation".toList⟩

def c8Entry : Entry :=
  ⟨⟨some "Observation".toList, some "u-77".toList, []⟩, some c8Req,
    some "urn:uuid:u-77".toList⟩

/-! ## `validate_resource_ids` (validate_patient.py lines 932-994) -/

/-- Python `rid.startswith('a-')`. -/
def startsWithAminus : Str → Bool
  | 'a' :: '-' :: _ => true
  | _ => false

/-- The mutable locals of the `validate_resource_ids` loop. -/
structure VScan where
  seen : List Str
  dups : List Str
  uuidRes : List Str
  upc : Nat
  nc : Nat
  warn : Nat
  deriving DecidableEq

/-- One iteration of the `validate_resource_ids` loop: warn on a falsy id;
record a duplicate when the id was already seen; classify the id's format
(UUID shape: length 36 with four hyphens, exempting `Medication`; else
`t`/`a-` prefixed numeric). -/
def scanEntry (sc : VScan) (e : Entry) : VScan :=
  let rt := e.resource.resourceType.getD ("Unknown".toList)
  match e.resource.id with
  | none => { sc with warn := sc.warn + 1 }
  | some rid =>
    if rid = [] then { sc with warn := sc.warn + 1 }
    else
      let dups' := if rid ∈ sc.seen then sc.dups ++ [rt ++ '/' :: rid] else sc.dups
      let seen' := if rid ∈ sc.seen then sc.seen else sc.seen ++ [rid]
      if rid.length = 36 ∧ rid.count '-' = 4 then
        if rt ≠ "Medication".toList then
          { sc with
            seen := seen'
            dups := dups'
            upc := sc.upc + 1
            uuidRes := sc.uuidRes ++ [rt ++ '/' :: rid] }
        else
          { sc with
            seen := seen'
            dups := dups'
            upc := sc.upc + 1 }
      else if startsWithT rid || startsWithAminus rid then
        { sc with
          seen := seen'
          dups := dups'
          nc := sc.nc + 1 }
      else
        { sc with
          seen := seen'
          dups := dups' }

structure VRes where
  passed : Bool
  duplicateIds : List Str
  uuidResources : List Str
  uuidPatternCount : Nat
  numericCount : Nat
  warnings : Nat
  deriving DecidableEq

/-- `validate_resource_ids`: scan all entries, then settle `passed`.
`add_issue` (which clears `passed`) fires exactly when duplicates were found;
the two final branches re-set `passed` to true whenever there are no
duplicates, whatever `uuid_resources` holds ("Warning only for UUIDs"). -/
def validateResourceIds (bundle : List Entry) : VRes :=
  let sc := bundle.foldl scanEntry ⟨[], [], [], 0, 0, 0⟩
  let passedAfterIssues := sc.dups.isEmpty
  let passed :=
    if sc.dups.isEmpty ∧ sc.uuidRes.length ≤ 5 then true
    else if sc.dups.isEmpty then true
    else passedAfterIssues
  ⟨passed, sc.dups, sc.uuidRes, sc.upc, sc.nc, sc.warn⟩

/-- The resource ids present (non-falsy) in a bundle, in order. -/
def presentIds (bundle : List Entry) : List Str :=
  bundle.filterMap (fun e =>
    match e.resource.id with
    | some r => if r = [] then none else some r
    | none => none)

def c9CexBundle : List Entry :=
  [ ⟨⟨some "Encounter".toList, some "aaaaaaaa-aaaa-aaaa-aaaa-aaaaaaaaaaaa".toList, []⟩,
      none, none⟩ ]

/-! ## `update_all_references` (convert script lines 489-559) -/

/-- `[A-Za-z]` of the reference regexes. -/
def isAlphaChar (c : Char) : Bool := c.isAlpha

/-- `[\w-]` of the reference regexes (ASCII scope). -/
def isWordHyphen (c : Char) : Bool := c.isAlphanum || c = '_' || c = '-'

/-- `re.match(r'([A-Za-z]+)\?identifier=', ref)`: a maximal nonempty
alphabetic run followed immediately by the literal `?identifier=`; yields the
stated resource type. -/
def parseConditional (ref : Str) : Option Str :=
  let t := ref.takeWhile isAlphaChar
  if t ≠ [] ∧ ("?identifier=".toList).isPrefixOf (ref.drop t.length) then some t
  else none

/-- Group extraction of `re.search(r'identifier=([^|]+)\|(.+)', ref)` at one
candidate position: a nonempty pipe-free run, a literal `|`, then a nonempty
run of non-newline characters (`.` does not match a newline). -/
def identValueAt (r : Str) : Option Str :=
  let g1 := r.takeWhile (fun c => c ≠ '|')
  if g1 = [] then none
  else
    match r.drop g1.length with
    | c :: g2 =>
      if c = '|' then
        let v := g2.takeWhile (fun c => c ≠ '\n')
        if v = [] then none else some v
      else none
    | [] => none

/-- `re.search(r'identifier=([^|]+)\|(.+)', ref)`: leftmost occurrence of
`identifier=` whose tail completes the pattern; yields group 2. -/
def searchIdentValue : Str → Option Str
  | [] => none
  | c :: rest =>
    if ("identifier=".toList).isPrefixOf (c :: rest) then
      match identValueAt ((c :: rest).drop ("identifier=".toList).length) with
      | some v => some v
      | none => searchIdentValue rest
    else searchIdentValue rest

/-- `re.match(r'urn:uuid:([\w-]+)', ref)`. -/
def parseUrn (ref : Str) : Option Str :=
  if ("urn:uuid:".toList).isPrefixOf ref then
    let u := (ref.drop ("urn:uuid:".toList).length).takeWhile isWordHyphen
    if u ≠ [] then some u else none
  else none

/-- `re.match(r'([A-Za-z]+)/([\w-]+)', ref)`. -/
def parseTyped (ref : Str) : Option (Str × Str) :=
  let t := ref.takeWhile isAlphaChar
  match ref.drop t.length with
  | c :: rest =>
    if c = '/' then
      let u := rest.takeWhile isWordHyphen
      if t ≠ [] ∧ u ≠ [] then some (t, u) else none
    else none
  | [] => none

/-- Outcome of classifying one reference string against the mapping:
a rewritten conditional reference (early return, both counters up), a
conditional form left unchanged (early return, no counters), or the plain
path with its possibly rewritten string and reference-counter increment. -/
inductive RefOutcome where
  | condRewrite (newRef : Str)
  | condSkip
  | plain (newRef : Str) (cnt : Nat)
  deriving DecidableEq

/-- The reference-classification logic of `update_reference` (lines 514-546):
conditional form first, then `urn:uuid:` (type taken from the mapping), then
`Type/uuid` (stated type preserved). -/
def classifyRef (um : List (Str × Str × Str)) (ref : Str) : RefOutcome :=
  match parseConditional ref with
  | some t =>
    match searchIdentValue ref with
    | some v =>
      match dictLookup um v with
      | some (nid, _) => .condRewrite (t ++ '/' :: nid)
      | none => .condSkip
    | none => .condSkip
  | none =>
    match parseUrn ref with
    | some u =>
      match dictLookup um u with
      | some (nid, tm) => .plain (tm ++ '/' :: nid) 1
      | none => .plain ref 0
    | none =>
      match parseTyped ref with
      | some (t, u) =>
        match dictLookup um u with
        | some (nid, _) => .plain (t ++ '/' :: nid) 1
        | none => .plain ref 0
      | none => .plain ref 0

mutual
inductive JValue where
  | str (s : Str)
  | atom
  | obj (fields : JFields)
  | arr (elems : JArr)
  deriving DecidableEq

inductive JFields where
  | fnil
  | fcons (name : Str) (val : JValue) (rest : JFields)
  deriving DecidableEq

inductive JArr where
  | anil
  | acons (head : JValue) (rest : JArr)
  deriving DecidableEq
end

def refKey : Str := "reference".toList

/-- `'reference' in obj` and `obj['reference']` when it is a string: the
first `reference` field holding a string value. -/
def getRefString : JFields → Option Str
  | .fnil => none
  | .fcons n v rest =>
    if n = refKey then
      match v with
      | .str s => some s
      | _ => none
    else getRefString rest

/-- `obj['reference'] = new`: replace the first `reference` field's value. -/
def setRefString : JFields → Str → JFields
  | .fnil, _ => .fnil
  | .fcons n v rest, s =>
    if n = refKey then .fcons n (.str s) rest else .fcons n v (setRefString rest s)

mutual
/-- `update_reference(obj)` (lines 501-554), returning the rewritten value
together with the increments of `reference_count` and
`conditional_ref_count`.  A conditional-form reference returns early without
visiting the object's other values; otherwise every value of the (already
mutated) dict is visited — visiting the substituted reference string itself
is a no-op, which `updateFields` realizes by not recursing into the
substituted string. -/
def updateRef (um : List (Str × Str × Str)) : JValue → JValue × Nat × Nat
  | .str s => (.str s, 0, 0)
  | .atom => (.atom, 0, 0)
  | .arr es =>
    let r := updateArr um es
    (.arr r.1, r.2)
  | .obj fs =>
    match getRefString fs with
    | none =>
      let r := updateFields um none fs
      (.obj r.1, r.2)
    | some ref =>
      match classifyRef um ref with
      | .condRewrite newRef => (.obj (setRefString fs newRef), 1, 1)
      | .condSkip => (.obj fs, 0, 0)
      | .plain newRef cnt =>
        let r := updateFields um (some newRef) fs
        (.obj r.1, cnt + r.2.1, r.2.2)

/-- Walk the fields: substitute the pending new reference string into the
first `reference` field (recursing into a plain string is the identity, so
it is skipped), and recurse into every other value. -/
def updateFields (um : List (Str × Str × Str)) :
    Option Str → JFields → JFields × Nat × Nat
  | _, .fnil => (.fnil, 0, 0)
  | some s, .fcons n v rest =>
    if n = refKey then
      let r := updateFields um none rest
      (.fcons n (.str s) r.1, r.2)
    else
      let rv := updateRef um v
      let rr := updateFields um (some s) rest
      (.fcons n rv.1 rr.1, rv.2.1 + rr.2.1, rv.2.2 + rr.2.2)
  | none, .fcons n v rest =>
    let rv := updateRef um v
    let rr := updateFields um none rest
    (.fcons n rv.1 rr.1, rv.2.1 + rr.2.1, rv.2.2 + rr.2.2)

def updateArr (um : List (Str × Str × Str)) : JArr → JArr × Nat × Nat
  | .anil => (.anil, 0, 0)
  | .acons v rest =>
    let rv := updateRef um v
    let rr := updateArr um rest
    (.acons rv.1 rr.1, rv.2.1 + rr.2.1, rv.2.2 + rr.2.2)
end

def c4Um : List (Str × Str × Str) :=
  [("uuid-5".toList, ("t777".toList, "B".toList))]

def c4Fields : JFields :=
  .fcons refKey (.str "B?identifier=system|uuid-5".toList) .fnil

def c4FieldsMiss : JFields :=
  .fcons refKey (.str "B?identifier=system|uuid-9".toList) .fnil

def c5Um : List (Str × Str × Str) :=
  [("u1-x".toList, ("t42".toList, "Observation".toList))]

lemma countOccsF_fuel_irrel (k : Str) :
    ∀ f g s, s.length ≤ f → s.length ≤ g → countOccsF k f s = countOccsF k g s := by
  intro f
  induction f with
  | zero =>
    intro g s hf _
    have : s = [] := List.eq_nil_of_length_eq_zero (Nat.le_zero.mp hf)
    subst this
    cases g <;> simp [countOccsF]
  | succ f ih =>
    intro g s hf hg
    cases s with
    | nil => cases g <;> simp [countOccsF]
    | cons c rest =>
      cases g with
      | zero => simp at hg
      | succ g =>
        simp only [countOccsF]
        by_cases h : k.isPrefixOf (c :: rest) ∧ k ≠ []
        · have hk : 1 ≤ k.length := by
            cases k with
            | nil => exact absurd rfl h.2
            | cons a b => simp
          simp only [if_pos h]
          have hlen : ((c :: rest).drop k.length).length ≤ f := by
            simp only [List.length_drop, List.length_cons]
            simp only [List.length_cons] at hf
            omega
          have hleng : ((c :: rest).drop k.length).length ≤ g := by
            simp only [List.length_drop, List.length_cons]
            simp only [List.length_cons] at hg
            omega
          rw [ih g _ hlen hleng]
        · simp only [if_neg h]
          have hlen : rest.length ≤ f := by simp only [List.length_cons] at hf; omega
          have hleng : rest.length ≤ g := by simp only [List.length_cons] at hg; omega
          exact ih g rest hlen hleng

lemma listReplaceF_fuel_irrel (k v : Str) :
    ∀ f g s, s.length ≤ f → s.length ≤ g → listReplaceF k v f s = listReplaceF k v g s := by
  intro f
  induction f with
  | zero =>
    intro g s hf _
    have : s = [] := List.eq_nil_of_length_eq_zero (Nat.le_zero.mp hf)
    subst this
    cases g <;> simp [listReplaceF]
  | succ f ih =>
    intro g s hf hg
    cases s with
    | nil => cases g <;> simp [listReplaceF]
    | cons c rest =>
      cases g with
      | zero => simp at hg
      | succ g =>
        simp only [listReplaceF]
        by_cases h : k.isPrefixOf (c :: rest) ∧ k ≠ []
        · have hk : 1 ≤ k.length := by
            cases k with
            | nil => exact absurd rfl h.2
            | cons a b => simp
          simp only [if_pos h]
          have hlen : ((c :: rest).drop k.length).length ≤ f := by
            simp only [List.length_drop, List.length_cons]
            simp only [List.length_cons] at hf
            omega
          have hleng : ((c :: rest).drop k.length).length ≤ g := by
            simp only [List.length_drop, List.length_cons]
            simp only [List.length_cons] at hg
            omega
          rw [ih g _ hlen hleng]
        · simp only [if_neg h]
          have hlen : rest.length ≤ f := by simp only [List.length_cons] at hf; omega
          have hleng : rest.length ≤ g := by simp only [List.length_cons] at hg; omega
          rw [ih g rest hlen hleng]

@[simp] lemma countOccs_nil (k : Str) : countOccs k [] = 0 := by
  simp [countOccs, countOccsF]

lemma countOccs_cons_pos (k : Str) (c : Char) (rest : Str)
    (h : k.isPrefixOf (c :: rest) ∧ k ≠ []) :
    countOccs k (c :: rest) = countOccs k ((c :: rest).drop k.length) + 1 := by
  have hk : 1 ≤ k.length := by
    cases k with
    | nil => exact absurd rfl h.2
    | cons a b => simp
  simp only [countOccs, List.length_cons, countOccsF, if_pos h]
  congr 1
  exact countOccsF_fuel_irrel k _ _ _
    (by simp only [List.length_drop, List.length_cons]; omega) le_rfl

lemma countOccs_cons_neg (k : Str) (c : Char) (rest : Str)
    (h : ¬ (k.isPrefixOf (c :: rest) ∧ k ≠ [])) :
    countOccs k (c :: rest) = countOccs k rest := by
  simp only [countOccs, List.length_cons, countOccsF, if_neg h]

@[simp] lemma listReplace_nil (k v : Str) : listReplace k v [] = [] := by
  simp [listReplace, listReplaceF]

lemma listReplace_cons_pos (k v : Str) (c : Char) (rest : Str)
    (h : k.isPrefixOf (c :: rest) ∧ k ≠ []) :
    listReplace k v (c :: rest) = v ++ listReplace k v ((c :: rest).drop k.length) := by
  have hk : 1 ≤ k.length := by
    cases k with
    | nil => exact absurd rfl h.2
    | cons a b => simp
  simp only [listReplace, List.length_cons, listReplaceF, if_pos h]
  congr 1
  exact listReplaceF_fuel_irrel k v _ _ _
    (by simp only [List.length_drop, List.length_cons]; omega) le_rfl

lemma listReplace_cons_neg (k v : Str) (c : Char) (rest : Str)
    (h : ¬ (k.isPrefixOf (c :: rest) ∧ k ≠ [])) :
    listReplace k v (c :: rest) = c :: listReplace k v rest := by
  simp only [listReplace, List.length_cons, listReplaceF, if_neg h]

lemma key_length_pos {k : Str} (hk : k ≠ []) : 1 ≤ k.length := by
  cases k with
  | nil => exact absurd rfl hk
  | cons a b => simp

/-- Induction principle following the greedy scan of `listReplace`/`countOccs`. -/
lemma greedyRec (k : Str) (hk : k ≠ []) (P : Str → Prop)
    (h0 : P [])
    (hpos : ∀ c rest, k.isPrefixOf (c :: rest) = true →
      P ((c :: rest).drop k.length) → P (c :: rest))
    (hneg : ∀ c rest, ¬ k.isPrefixOf (c :: rest) = true → P rest → P (c :: rest)) :
    ∀ s, P s := by
  have H : ∀ n s, s.length ≤ n → P s := by
    intro n
    induction n with
    | zero =>
      intro s hs
      have : s = [] := List.eq_nil_of_length_eq_zero (Nat.le_zero.mp hs)
      exact this ▸ h0
    | succ n ih =>
      intro s hs
      cases s with
      | nil => exact h0
      | cons c rest =>
        by_cases hp : k.isPrefixOf (c :: rest) = true
        · refine hpos c rest hp (ih _ ?_)
          have hk1 := key_length_pos hk
          simp only [List.length_cons] at hs
          simp only [List.length_drop, List.length_cons]
          omega
        · refine hneg c rest hp (ih rest ?_)
          simp only [List.length_cons] at hs
          omega
  exact fun s => H s.length s le_rfl

lemma countOccs_pos (k : Str) (hk : k ≠ []) (c : Char) (rest : Str)
    (h : k.isPrefixOf (c :: rest) = true) :
    countOccs k (c :: rest) = countOccs k ((c :: rest).drop k.length) + 1 :=
  countOccs_cons_pos k c rest ⟨h, hk⟩

lemma countOccs_neg (k : Str) (c : Char) (rest : Str)
    (h : ¬ k.isPrefixOf (c :: rest) = true) :
    countOccs k (c :: rest) = countOccs k rest :=
  countOccs_cons_neg k c rest (by intro hc; exact h hc.1)

lemma listReplace_pos (k v : Str) (hk : k ≠ []) (c : Char) (rest : Str)
    (h : k.isPrefixOf (c :: rest) = true) :
    listReplace k v (c :: rest) = v ++ listReplace k v ((c :: rest).drop k.length) :=
  listReplace_cons_pos k v c rest ⟨h, hk⟩

lemma listReplace_neg (k v : Str) (c : Char) (rest : Str)
    (h : ¬ k.isPrefixOf (c :: rest) = true) :
    listReplace k v (c :: rest) = c :: listReplace k v rest :=
  listReplace_cons_neg k v c rest (by intro hc; exact h hc.1)

/-- `countOccs` detects exactly the substring occurrences: the count is zero
iff the token is not an infix. -/
lemma countOccs_eq_zero_iff {k : Str} (hk : k ≠ []) :
    ∀ s, countOccs k s = 0 ↔ ¬ k <:+: s := by
  apply greedyRec k hk
  · simp [List.infix_nil, hk]
  · intro c rest hp _
    rw [countOccs_pos k hk c rest hp]
    have : k <:+: c :: rest :=
      (List.isPrefixOf_iff_prefix.mp hp).isInfix
    simp [this]
  · intro c rest hp ih
    rw [countOccs_neg k c rest hp, List.infix_cons_iff]
    have hnp : ¬ k <+: c :: rest := fun hc => hp (List.isPrefixOf_iff_prefix.mpr hc)
    rw [ih]
    tauto

lemma countOccs_zero_of_infix {k s s' : Str} (hk : k ≠ [])
    (h : countOccs k s = 0) (hs : s' <:+: s) : countOccs k s' = 0 := by
  rw [countOccs_eq_zero_iff hk] at h ⊢
  exact fun hc => h (hc.trans hs)

/-- Decomposition of an infix of an append: it lies in the left part, the
right part, or spans the boundary. -/
lemma infix_append_cases {k a b : Str} (h : k <:+: a ++ b) :
    k <:+: a ∨ k <:+: b ∨
      ∃ k₁ k₂, k = k₁ ++ k₂ ∧ k₁ ≠ [] ∧ k₂ ≠ [] ∧ k₁ <:+ a ∧ k₂ <+: b := by
  obtain ⟨t, u, htu⟩ := h
  have h1 : a ++ b = t ++ (k ++ u) := by rw [← htu]; simp [List.append_assoc]
  rcases List.append_eq_append_iff.mp h1 with ⟨m, hm1, hm2⟩ | ⟨m, hm1, hm2⟩
  · -- t = a ++ m, so k sits inside b
    right; left
    exact ⟨m, u, by rw [hm2]; simp [List.append_assoc]⟩
  · -- a = t ++ m and k ++ u = m ++ b
    rcases List.append_eq_append_iff.mp hm2 with ⟨w, hw1, hw2⟩ | ⟨k₂, hk1, hk2⟩
    · -- m = k ++ w : k sits inside a
      left
      exact ⟨t, w, by rw [hm1, hw1]; simp [List.append_assoc]⟩
    · -- k = m ++ k₂ and b = k₂ ++ u
      by_cases hm0 : m = []
      · subst hm0
        right; left
        have hk1' : k = k₂ := by simpa using hk1
        exact ⟨[], u, by simp [hk1', hk2]⟩
      · by_cases hk20 : k₂ = []
        · subst hk20
          left
          rw [List.append_nil] at hk1
          exact ⟨t, [], by simp [hm1, hk1]⟩
        · right; right
          exact ⟨m, k₂, hk1, hm0, hk20, ⟨t, hm1.symm⟩, ⟨u, hk2.symm⟩⟩

/-- Prefix-reflection: a nonempty prefix-match of any suffix of a token `w`
whose characters avoid the head of the replacement `v` reflects from the
replaced string back to the original string. -/
lemma replace_reflects_matches (k v w : Str) (hk : k ≠ []) (t0 : Char) (v' : Str)
    (hv : v = t0 :: v') (ht0 : t0 ∉ w) :
    ∀ s, ∀ w', w' <:+ w → w'.isPrefixOf (listReplace k v s) = true →
      w' = [] ∨ w'.isPrefixOf s = true := by
  apply greedyRec k hk
  · intro w' _ hpre
    left
    rw [listReplace_nil] at hpre
    exact List.prefix_nil.mp (List.isPrefixOf_iff_prefix.mp hpre)
  · intro c rest hp _ w' hsub hpre
    cases w' with
    | nil => exact Or.inl rfl
    | cons d ds =>
      exfalso
      rw [listReplace_pos k v hk c rest hp, hv] at hpre
      have hdt : d = t0 := by
        have := List.isPrefixOf_iff_prefix.mp hpre
        rw [List.cons_append] at this
        exact (List.cons_prefix_cons.mp this).1
      exact ht0 (hdt ▸ hsub.subset (List.mem_cons_self d ds))
  · intro c rest hp ih w' hsub hpre
    cases w' with
    | nil => exact Or.inl rfl
    | cons d ds =>
      rw [listReplace_neg k v c rest hp] at hpre
      have hpre' := List.isPrefixOf_iff_prefix.mp hpre
      obtain ⟨hdc, hds⟩ := List.cons_prefix_cons.mp hpre'
      have hds' : ds <:+ w := (List.tail_suffix (d :: ds)).trans hsub
      rcases ih ds hds' (List.isPrefixOf_iff_prefix.mpr hds) with h0 | hrest
      · subst h0
        right
        subst hdc
        exact List.isPrefixOf_iff_prefix.mpr (List.cons_prefix_cons.mpr ⟨rfl, List.nil_prefix⟩)
      · right
        subst hdc
        exact List.isPrefixOf_iff_prefix.mpr
          (List.cons_prefix_cons.mpr ⟨rfl, List.isPrefixOf_iff_prefix.mp hrest⟩)

lemma countOccs_zero_cons {v : Str} (hv : v ≠ []) {c : Char} {rest : Str}
    (h : countOccs v (c :: rest) = 0) : countOccs v rest = 0 :=
  countOccs_zero_of_infix hv h (List.suffix_cons c rest).isInfix

/-- `countOccs` of a token at the head of an append counts one occurrence and
continues past it. -/
lemma countOccs_self_append (v X : Str) (hv : v ≠ []) :
    countOccs v (v ++ X) = countOccs v X + 1 := by
  cases v with
  | nil => exact absurd rfl hv
  | cons d ds =>
    have hpre : (d :: ds).isPrefixOf ((d :: ds) ++ X) = true :=
      List.isPrefixOf_iff_prefix.mpr (List.prefix_append (d :: ds) X)
    have hcons : (d :: ds) ++ X = d :: (ds ++ X) := rfl
    rw [hcons] at hpre
    rw [hcons, countOccs_pos (d :: ds) hv d (ds ++ X) hpre]
    have hdrop : (d :: (ds ++ X)).drop (d :: ds).length = X := by
      rw [← hcons]
      exact List.drop_left (d :: ds) X
    rw [hdrop]

/-- After replacing `k` by `v`, no occurrence of `k` remains, provided the
replacement value cannot recreate the token: `v` starts with a character not
in `k`, `k` does not occur inside `v`, and no nonempty suffix of `v` is a
prefix of `k`. -/
lemma replace_removes_key (k v : Str) (hk : k ≠ []) (t0 : Char) (v' : Str)
    (hv : v = t0 :: v') (ht0 : t0 ∉ k)
    (hkv : ¬ k <:+: v)
    (hsv : ∀ w', w' <:+ v → w' ≠ [] → ¬ w' <+: k) :
    ∀ s, ¬ k <:+: listReplace k v s := by
  apply greedyRec k hk
  · rw [listReplace_nil]
    simp [hk]
  · intro c rest hp ih hinf
    rw [listReplace_pos k v hk c rest hp] at hinf
    rcases infix_append_cases hinf with h | h | ⟨k₁, k₂, hks, hk₁, hk₂, hsfx, hpre⟩
    · exact hkv h
    · exact ih h
    · exact hsv k₁ hsfx hk₁ ⟨k₂, hks.symm⟩
  · intro c rest hp ih hinf
    rw [listReplace_neg k v c rest hp] at hinf
    rcases List.infix_cons_iff.mp hinf with hpre | htail
    · obtain ⟨d, ds, hke⟩ : ∃ d ds, k = d :: ds := by
        cases k with
        | nil => exact absurd rfl hk
        | cons d ds => exact ⟨d, ds, rfl⟩
      subst hke
      obtain ⟨hdc, hds⟩ := List.cons_prefix_cons.mp hpre
      rcases replace_reflects_matches (d :: ds) v (d :: ds) hk t0 v' hv ht0 rest ds
          (List.suffix_cons d ds) (List.isPrefixOf_iff_prefix.mpr hds) with h0 | hrest
      · apply hp
        rw [h0]
        subst hdc
        exact List.isPrefixOf_iff_prefix.mpr (List.cons_prefix_cons.mpr ⟨rfl, List.nil_prefix⟩)
      · apply hp
        subst hdc
        exact List.isPrefixOf_iff_prefix.mpr
          (List.cons_prefix_cons.mpr ⟨rfl, List.isPrefixOf_iff_prefix.mp hrest⟩)
    · exact ih htail

/-- A proper suffix of `v` that prefix-matches the replaced string already
prefix-matched the original string, provided `v` has no nonempty proper
suffix that is also a prefix of itself. -/
lemma replace_reflects_self (k v : Str) (hk : k ≠ [])
    (hb : ∀ w', w' <:+ v → w' ≠ [] → w' ≠ v → ¬ w' <+: v) :
    ∀ s, ∀ w', w' <:+ v → w' ≠ v → w'.isPrefixOf (listReplace k v s) = true →
      w' = [] ∨ w'.isPrefixOf s = true := by
  apply greedyRec k hk
  · intro w' _ _ hpre
    left
    rw [listReplace_nil] at hpre
    exact List.prefix_nil.mp (List.isPrefixOf_iff_prefix.mp hpre)
  · intro c rest hp _ w' hsub hne hpre
    by_cases h0 : w' = []
    · exact Or.inl h0
    exfalso
    rw [listReplace_pos k v hk c rest hp] at hpre
    have hpre' : w' <+: v :=
      List.prefix_of_prefix_length_le (List.isPrefixOf_iff_prefix.mp hpre)
        (List.prefix_append v _) hsub.length_le
    exact hb w' hsub h0 hne hpre'
  · intro c rest hp ih w' hsub hne hpre
    cases w' with
    | nil => exact Or.inl rfl
    | cons d ds =>
      rw [listReplace_neg k v c rest hp] at hpre
      obtain ⟨hdc, hds⟩ := List.cons_prefix_cons.mp (List.isPrefixOf_iff_prefix.mp hpre)
      have hds' : ds <:+ v := (List.suffix_cons d ds).trans hsub
      have hdsne : ds ≠ v := by
        intro he
        have h1 : (d :: ds).length ≤ v.length := hsub.length_le
        rw [← he] at h1
        simp at h1
      rcases ih ds hds' hdsne (List.isPrefixOf_iff_prefix.mpr hds) with h0 | hrest
      · right
        rw [h0]
        subst hdc
        exact List.isPrefixOf_iff_prefix.mpr (List.cons_prefix_cons.mpr ⟨rfl, List.nil_prefix⟩)
      · right
        subst hdc
        exact List.isPrefixOf_iff_prefix.mpr
          (List.cons_prefix_cons.mpr ⟨rfl, List.isPrefixOf_iff_prefix.mp hrest⟩)

/-- Count preservation: when the assigned identifier `v` does not occur
beforehand and does not overlap itself, the replaced string contains exactly
one occurrence of `v` per replaced occurrence of `k`. -/
lemma replace_count_value (k v : Str) (hk : k ≠ []) (hv : v ≠ [])
    (hb : ∀ w', w' <:+ v → w' ≠ [] → w' ≠ v → ¬ w' <+: v) :
    ∀ s, countOccs v s = 0 → countOccs v (listReplace k v s) = countOccs k s := by
  apply greedyRec k hk
    (fun s => countOccs v s = 0 → countOccs v (listReplace k v s) = countOccs k s)
  · intro _
    simp
  · intro c rest hp ih hvs
    rw [listReplace_pos k v hk c rest hp, countOccs_pos k hk c rest hp]
    have hXcount : countOccs v ((c :: rest).drop k.length) = 0 :=
      countOccs_zero_of_infix hv hvs (List.drop_suffix k.length (c :: rest)).isInfix
    rw [countOccs_self_append v _ hv, ih hXcount]
  · intro c rest hp ih hvs
    have hnot : ¬ v.isPrefixOf (c :: listReplace k v rest) = true := by
      intro hpre
      obtain ⟨d, ds, hvc⟩ : ∃ d ds, v = d :: ds := by
        cases v with
        | nil => exact absurd rfl hv
        | cons d ds => exact ⟨d, ds, rfl⟩
      subst hvc
      obtain ⟨hdc, hds⟩ := List.cons_prefix_cons.mp (List.isPrefixOf_iff_prefix.mp hpre)
      have hdsne : ds ≠ d :: ds := by
        intro he
        have h1 : (d :: ds).length = ds.length + 1 := by simp
        rw [← he] at h1
        omega
      have hvpre : (d :: ds).isPrefixOf (c :: rest) = true := by
        rcases replace_reflects_self k (d :: ds) hk hb rest ds (List.suffix_cons d ds)
            hdsne (List.isPrefixOf_iff_prefix.mpr hds) with h0 | hrest
        · rw [h0]
          subst hdc
          exact List.isPrefixOf_iff_prefix.mpr (List.cons_prefix_cons.mpr ⟨rfl, List.nil_prefix⟩)
        · subst hdc
          exact List.isPrefixOf_iff_prefix.mpr
            (List.cons_prefix_cons.mpr ⟨rfl, List.isPrefixOf_iff_prefix.mp hrest⟩)
      rw [countOccs_eq_zero_iff hv] at hvs
      exact hvs (List.isPrefixOf_iff_prefix.mp hvpre).isInfix
    rw [listReplace_neg k v c rest hp, countOccs_neg v _ _ hnot, countOccs_neg k c rest hp]
    exact ih (countOccs_zero_cons hv hvs)

/-- If the token does not occur, the replacement is the identity. -/
lemma listReplace_of_absent (k v : Str) : ∀ s, countOccs k s = 0 → listReplace k v s = s := by
  by_cases hk : k = []
  · subst hk
    intro s h
    clear h
    induction s with
    | nil => simp
    | cons c rest ih =>
      rw [listReplace_cons_neg [] v c rest (fun hc => hc.2 rfl), ih]
  · apply greedyRec k hk (fun s => countOccs k s = 0 → listReplace k v s = s)
    · intro _
      simp
    · intro c rest hp _ h0
      rw [countOccs_pos k hk c rest hp] at h0
      omega
    · intro c rest hp ih h0
      rw [countOccs_neg k c rest hp] at h0
      rw [listReplace_neg k v c rest hp, ih h0]

/-- A different absent token `k'` stays absent across the replacement of `k`
by `v`, provided `v` cannot create it. -/
lemma replace_keeps_absent (k v k' : Str) (hk : k ≠ []) (hk' : k' ≠ [])
    (t0 : Char) (v' : Str) (hv : v = t0 :: v') (ht0 : t0 ∉ k')
    (hk'v : ¬ k' <:+: v)
    (hsv : ∀ w', w' <:+ v → w' ≠ [] → ¬ w' <+: k') :
    ∀ s, ¬ k' <:+: s → ¬ k' <:+: listReplace k v s := by
  apply greedyRec k hk
  · intro _ h
    rw [listReplace_nil] at h
    exact hk' (List.infix_nil.mp h)
  · intro c rest hp ih habs hinf
    rw [listReplace_pos k v hk c rest hp] at hinf
    rcases infix_append_cases hinf with h | h | ⟨k₁, k₂, hks, hk₁, hk₂, hsfx, hpre⟩
    · exact hk'v h
    · exact ih (fun hc => habs (hc.trans (List.drop_suffix k.length (c :: rest)).isInfix)) h
    · exact hsv k₁ hsfx hk₁ ⟨k₂, hks.symm⟩
  · intro c rest hp ih habs hinf
    rw [listReplace_neg k v c rest hp] at hinf
    rcases List.infix_cons_iff.mp hinf with hpre | htail
    · obtain ⟨d, ds, hke⟩ : ∃ d ds, k' = d :: ds := by
        cases k' with
        | nil => exact absurd rfl hk'
        | cons d ds => exact ⟨d, ds, rfl⟩
      subst hke
      obtain ⟨hdc, hds⟩ := List.cons_prefix_cons.mp hpre
      have hinrest : (d :: ds).isPrefixOf (c :: rest) = true := by
        rcases replace_reflects_matches k v (d :: ds) hk t0 v' hv ht0 rest ds
            (List.suffix_cons d ds) (List.isPrefixOf_iff_prefix.mpr hds) with h0 | hrest
        · rw [h0]
          subst hdc
          exact List.isPrefixOf_iff_prefix.mpr (List.cons_prefix_cons.mpr ⟨rfl, List.nil_prefix⟩)
        · subst hdc
          exact List.isPrefixOf_iff_prefix.mpr
            (List.cons_prefix_cons.mpr ⟨rfl, List.isPrefixOf_iff_prefix.mp hrest⟩)
      exact habs (List.isPrefixOf_iff_prefix.mp hinrest).isInfix
    · exact ih (fun hc => habs (hc.trans (List.suffix_cons c rest).isInfix)) htail

lemma processXml_cons (p : Str × Str) (es : List (Str × Str)) (s : Str) :
    processXml (p :: es) s =
      processXml es (if startsWithT p.1 then s else xmlReplaceStep s p) := by
  simp [processXml, List.foldl_cons]

lemma processXml_append (es₁ es₂ : List (Str × Str)) (s : Str) :
    processXml (es₁ ++ es₂) s = processXml es₂ (processXml es₁ s) := by
  simp [processXml, List.foldl_append]

/-- When every entry is either skipped ('t'-prefixed key) or absent from the
document, the substitution pass is the identity. -/
lemma processXml_id (es : List (Str × Str)) (s : Str)
    (h : ∀ p ∈ es, startsWithT p.1 = true ∨ countOccs p.1 s = 0) :
    processXml es s = s := by
  induction es with
  | nil => rfl
  | cons p es ih =>
    rw [processXml_cons]
    rcases h p (List.mem_cons_self p es) with ht | habs
    · rw [if_pos ht]
      exact ih (fun q hq => h q (List.mem_cons_of_mem p hq))
    · have hstep : (if startsWithT p.1 then s else xmlReplaceStep s p) = s := by
        by_cases ht : startsWithT p.1
        · rw [if_pos ht]
        · rw [if_neg ht]
          simp [xmlReplaceStep, habs]
      rw [hstep]
      exact ih (fun q hq => h q (List.mem_cons_of_mem p hq))

lemma tails_cond_to_suffix {v target : Str}
    (h : ∀ w' ∈ v.tails, w' ≠ [] → w'.isPrefixOf target = false) :
    ∀ w', w' <:+ v → w' ≠ [] → ¬ w' <+: target := by
  intro w' hs hne hp
  have hfalse := h w' ((List.mem_tails w' v).mpr hs) hne
  rw [List.isPrefixOf_iff_prefix.mpr hp] at hfalse
  exact absurd hfalse (by simp)

lemma tails_cond_to_self {v : Str}
    (h : ∀ w' ∈ v.tails, w' ≠ [] → w' ≠ v → w'.isPrefixOf v = false) :
    ∀ w', w' <:+ v → w' ≠ [] → w' ≠ v → ¬ w' <+: v := by
  intro w' hs hne hnv hp
  have hfalse := h w' ((List.mem_tails w' v).mpr hs) hne hnv
  rw [List.isPrefixOf_iff_prefix.mpr hp] at hfalse
  exact absurd hfalse (by simp)

/-- C2 (amended): for a mapping entry `(k, v)` whose key does not begin with
`'t'`, provided the substitutions cannot interfere — the other keys are
`'t'`-prefixed or absent from the document and not recreatable by `v`, the
assigned identifier `v` is absent beforehand, starts with a character not in
any substituted key, does not contain `k`, and has no self-overlap — the
consistency pass leaves zero occurrences of `k`, and exactly one occurrence
of `v` per original occurrence of `k`. -/
theorem c2_xml_token_substitution
    (es₁ es₂ : List (Str × Str)) (k v s₀ : Str) (t0 : Char) (v'' : Str)
    (hk : k ≠ [])
    (hv : v = t0 :: v'')
    (ht0k : t0 ∉ k)
    (hkt : startsWithT k = false)
    (hkv : countOccs k v = 0)
    (hsvk : ∀ w' ∈ v.tails, w' ≠ [] → w'.isPrefixOf k = false)
    (hself : ∀ w' ∈ v.tails, w' ≠ [] → w' ≠ v → w'.isPrefixOf v = false)
    (hvabs : countOccs v s₀ = 0)
    (hes₁ : ∀ p ∈ es₁, startsWithT p.1 = true ∨ countOccs p.1 s₀ = 0)
    (hes₂ : ∀ p ∈ es₂, startsWithT p.1 = true ∨
      (p.1 ≠ [] ∧ countOccs p.1 s₀ = 0 ∧ t0 ∉ p.1 ∧ countOccs p.1 v = 0 ∧
        ∀ w' ∈ v.tails, w' ≠ [] → w'.isPrefixOf p.1 = false)) :
    countOccs k (processXml (es₁ ++ (k, v) :: es₂) s₀) = 0 ∧
      countOccs v (processXml (es₁ ++ (k, v) :: es₂) s₀) = countOccs k s₀ := by
  have hvne : v ≠ [] := by rw [hv]; simp
  rw [processXml_append, processXml_id es₁ s₀ hes₁, processXml_cons,
    if_neg (by rw [hkt]; simp)]
  by_cases hc : countOccs k s₀ > 0
  · have hstep : xmlReplaceStep s₀ (k, v) = listReplace k v s₀ := by
      simp only [xmlReplaceStep]
      rw [if_pos hc]
    rw [hstep]
    have hks₁ : countOccs k (listReplace k v s₀) = 0 :=
      (countOccs_eq_zero_iff hk _).mpr
        (replace_removes_key k v hk t0 v'' hv ht0k
          ((countOccs_eq_zero_iff hk v).mp hkv) (tails_cond_to_suffix hsvk) s₀)
    have hvs₁ : countOccs v (listReplace k v s₀) = countOccs k s₀ :=
      replace_count_value k v hk hvne (tails_cond_to_self hself) s₀ hvabs
    have hid : processXml es₂ (listReplace k v s₀) = listReplace k v s₀ := by
      apply processXml_id
      intro p hp
      rcases hes₂ p hp with ht | ⟨hp1, hp2, hp3, hp4, hp5⟩
      · exact Or.inl ht
      · right
        have habs₀ : ¬ p.1 <:+: s₀ := (countOccs_eq_zero_iff hp1 s₀).mp hp2
        have habs₁ : ¬ p.1 <:+: listReplace k v s₀ :=
          replace_keeps_absent k v p.1 hk hp1 t0 v'' hv hp3
            ((countOccs_eq_zero_iff hp1 v).mp hp4) (tails_cond_to_suffix hp5) s₀ habs₀
        exact (countOccs_eq_zero_iff hp1 _).mpr habs₁
    rw [hid]
    exact ⟨hks₁, hvs₁⟩
  · have hc0 : countOccs k s₀ = 0 := by omega
    have hstep : xmlReplaceStep s₀ (k, v) = s₀ := by
      simp only [xmlReplaceStep]
      rw [if_neg hc]
    rw [hstep]
    have hid : processXml es₂ s₀ = s₀ := by
      apply processXml_id
      intro p hp
      rcases hes₂ p hp with ht | ⟨_, hp2, _⟩
      · exact Or.inl ht
      · exact Or.inr hp2
    rw [hid]
    exact ⟨hc0, by rw [hvabs, hc0]⟩

/-- Witness for `c2_xml_token_substitution` at a concrete mapping and
document: the UUID-shaped token is wholly replaced and its identifier appears
exactly as often as the token did. -/
theorem c2_xml_token_substitution_witness :
    countOccs c2wk (processXml [(c2wk, c2wv)] c2ws) = 0 ∧
      countOccs c2wv (processXml [(c2wk, c2wv)] c2ws) = countOccs c2wk c2ws :=
  c2_xml_token_substitution [] [] c2wk c2wv c2ws 't' "42".toList
    (by decide) (by decide) (by decide) (by decide) (by decide) (by decide)
    (by decide) (by decide) (by simp) (by simp)

/-- Counterexample to C2 as stated: the mapped token
`10100000-0000-0000-0000-000000000000` occurs in the serialized document, yet
after the consistency pass an occurrence of it remains, because the
substituted identifier `t10100000` recreates the token against the
document's following text. -/
theorem c2_xml_token_substitution_counterexample :
    countOccs c2ck c2cs ≠ 0 ∧ countOccs c2ck (processXml [(c2ck, c2cv)] c2cs) ≠ 0 := by
  decide

/-- C10: the consistency pass substitutes every key of the mapping that does
not begin with `'t'` — whatever its shape, UUID-like or natural key — and
always skips the keys that do begin with `'t'`: the pass equals the plain
substitution fold over exactly the non-`'t'` entries. -/
theorem c10_substitutes_every_non_t_key (es : List (Str × Str)) (s : Str) :
    processXml es s = (es.filter (fun p => !startsWithT p.1)).foldl xmlReplaceStep s := by
  induction es generalizing s with
  | nil => rfl
  | cons p es ih =>
    rw [processXml_cons]
    by_cases ht : startsWithT p.1
    · rw [if_pos ht, ih]
      congr 1
      simp [List.filter_cons, ht]
    · rw [if_neg ht, ih]
      have : (p :: es).filter (fun p => !startsWithT p.1) =
          p :: es.filter (fun p => !startsWithT p.1) := by
        simp [List.filter_cons, ht]
      rw [this, List.foldl_cons]

lemma ID_RANGES_wf : ∀ p ∈ ID_RANGES, p.2.1 ≤ p.2.2 := by decide

lemma rangesFind_le {t : Str} {lo hi : Nat} (h : rangesFind t = some (lo, hi)) :
    lo ≤ hi := by
  unfold rangesFind at h
  cases hf : ID_RANGES.find? (fun p => p.1 = t) with
  | none => rw [hf] at h; simp at h
  | some p =>
    rw [hf] at h
    have h' : p.2 = (lo, hi) := by simpa using h
    have hmem := List.mem_of_find?_eq_some hf
    have := ID_RANGES_wf p hmem
    rw [h'] at this
    exact this

lemma probe_some {used : List Nat} {lo sz offset : Nat} (hsz : 0 < sz) :
    ∀ {fuel attempt n}, probe used lo sz offset fuel attempt = some n →
      lo ≤ n ∧ n ≤ lo + sz - 1 ∧ n ∉ used := by
  intro fuel
  induction fuel with
  | zero => intro attempt n h; simp [probe] at h
  | succ f ih =>
    intro attempt n h
    simp only [probe] at h
    by_cases hmem : lo + (offset + attempt) % sz ∈ used
    · rw [if_pos hmem] at h
      exact ih h
    · rw [if_neg hmem] at h
      rw [Option.some.injEq] at h
      subst h
      have hlt : (offset + attempt) % sz < sz := Nat.mod_lt _ hsz
      exact ⟨Nat.le_add_right _ _, by omega, hmem⟩

lemma mem_addUsed_self (used : List Nat) (n : Nat) : n ∈ addUsed used n := by
  unfold addUsed
  by_cases h : n ∈ used
  · rw [if_pos h]; exact h
  · rw [if_neg h]; simp

lemma addUsed_subset (used : List Nat) (n : Nat) : used ⊆ addUsed used n := by
  unfold addUsed
  by_cases h : n ∈ used
  · rw [if_pos h]
    exact fun x hx => hx
  · rw [if_neg h]
    intro x hx
    simp [hx]

lemma traceFreshAux_append :
    ∀ (tr : List (Str × Nat)) (seen : List Nat) (t : Str) (n : Nat),
      traceFreshAux seen tr = true →
      (t = patientStr ∨ (n ∉ seen ∧ n ∉ tr.map Prod.snd)) →
      traceFreshAux seen (tr ++ [(t, n)]) = true := by
  intro tr
  induction tr with
  | nil =>
    intro seen t n _ hcond
    simp only [List.nil_append, traceFreshAux]
    rcases hcond with h | ⟨h1, _⟩
    · rw [if_pos h]
    · by_cases hp : t = patientStr
      · rw [if_pos hp]
      · rw [if_neg hp, if_neg h1]
  | cons hd tr ih =>
    intro seen t n hfresh hcond
    obtain ⟨t', n'⟩ := hd
    simp only [List.cons_append, traceFreshAux] at hfresh ⊢
    have hcond' : t = patientStr ∨ (n ∉ n' :: seen ∧ n ∉ tr.map Prod.snd) := by
      rcases hcond with h | ⟨h1, h2⟩
      · exact Or.inl h
      · right
        simp only [List.map_cons, List.mem_cons] at h2
        push_neg at h2
        constructor
        · simp only [List.mem_cons]
          push_neg
          exact ⟨h2.1, h1⟩
        · exact h2.2
    by_cases hp' : t' = patientStr
    · rw [if_pos hp'] at hfresh ⊢
      exact ih _ _ _ hfresh hcond'
    · rw [if_neg hp'] at hfresh ⊢
      by_cases hmem : n' ∈ seen
      · rw [if_pos hmem] at hfresh
        exact absurd hfresh (by simp)
      · rw [if_neg hmem] at hfresh ⊢
        exact ih _ _ _ hfresh hcond'

lemma recordAlloc_inv {st : BState} (rt rid : Str) (numeric : Nat)
    (idents : List Identifier) (h : allocInv st)
    (hcase : rt = patientStr ∨
      (inConfiguredRange (rt, numeric) = true ∧ numeric ∉ st.allUsed)) :
    allocInv (recordAlloc st rt rid numeric idents) := by
  obtain ⟨h1, h2, h3⟩ := h
  refine ⟨?_, ?_, ?_⟩
  · intro n hn
    simp only [recordAlloc, List.map_append, List.mem_append] at hn
    rcases hn with hn | hn
    · exact addUsed_subset _ _ (h1 n hn)
    · simp only [List.map_cons, List.map_nil, List.mem_singleton] at hn
      rw [hn]
      exact mem_addUsed_self _ _
  · show traceFreshAux [] (st.trace ++ [(rt, numeric)]) = true
    apply traceFreshAux_append st.trace [] rt numeric h2
    rcases hcase with hp | ⟨_, hfresh⟩
    · exact Or.inl hp
    · right
      refine ⟨by simp, fun hc => hfresh (h1 numeric hc)⟩
  · show traceRangeOk (st.trace ++ [(rt, numeric)]) = true
    simp only [traceRangeOk, List.all_append] at h3 ⊢
    rw [h3]
    simp only [Bool.true_and, List.all_cons, List.all_nil, Bool.and_true]
    rcases hcase with hp | ⟨hr, _⟩
    · simp [hp]
    · simp [hr]

lemma processEntry_inv (base draw : Nat) (st : BState) (e : Entry)
    (h : allocInv st) :
    (∀ st', processEntry base draw st e = .ok st' → allocInv st') ∧
    (∀ m, processEntry base draw st e = .error m → isExhaustMsg m = true) := by
  unfold processEntry
  cases hrt : e.resource.resourceType with
  | none => exact ⟨fun st' hok => by cases hok; exact h, fun m hm => by cases hm⟩
  | some rt =>
    cases hid : e.resource.id with
    | none => exact ⟨fun st' hok => by cases hok; exact h, fun m hm => by cases hm⟩
    | some rid =>
      dsimp only
      by_cases hh1 : rt = [] ∨ rid = []
      · rw [if_pos hh1]
        exact ⟨fun st' hok => by cases hok; exact h, fun m hm => by cases hm⟩
      · rw [if_neg hh1]
        by_cases hh2 : isdigitStr rid = true
        · rw [if_pos hh2]
          exact ⟨fun st' hok => by cases hok; exact h, fun m hm => by cases hm⟩
        · rw [if_neg hh2]
          cases hrf : rangesFind rt with
          | none => exact ⟨fun st' hok => by cases hok; exact h, fun m hm => by cases hm⟩
          | some p =>
            obtain ⟨lo, hi⟩ := p
            dsimp only
            by_cases hpat : rt = patientStr
            · rw [if_pos (by rw [hpat]; rfl)]
              refine ⟨fun st' hok => ?_, fun m hm => by cases hm⟩
              cases hok
              exact recordAlloc_inv rt rid base _ h (Or.inl hpat)
            · rw [if_neg (by rw [show ("Patient".toList : Str) = patientStr from rfl]; exact hpat)]
              cases hpr : probe st.allUsed lo (hi - lo + 1) (draw % (hi - lo + 1)) (hi - lo + 1) 0 with
              | none =>
                refine ⟨fun st' hok => (by cases hok), fun m hm => ?_⟩
                cases hm
                simp only [isExhaustMsg, Bool.and_eq_true]
                constructor
                · exact List.isPrefixOf_iff_prefix.mpr (List.prefix_append _ _)
                · have hd : List.drop (List.length exhaustMsgStart)
                      ("ID range exhausted for ".toList ++ rt) = rt :=
                    List.drop_left exhaustMsgStart rt
                  rw [hd, hrf]
                  rfl
              | some n =>
                refine ⟨fun st' hok => ?_, fun m hm => by cases hm⟩
                cases hok
                apply recordAlloc_inv rt rid n _ h
                right
                obtain ⟨hlo, hhi, hfree⟩ := probe_some (Nat.succ_pos _) hpr
                have hlohi : lo ≤ hi := rangesFind_le hrf
                constructor
                · simp only [inConfiguredRange, hrf]
                  have : n ≤ hi := by omega
                  simp [hlo, this]
                · exact hfree

lemma buildGo_inv (base : Nat) (draw : Nat → Nat) :
    ∀ (entries : List Entry) (i : Nat) (st : BState), allocInv st →
      (∀ st', buildGo base draw i st entries = .ok st' → allocInv st') ∧
      (∀ m, buildGo base draw i st entries = .error m → isExhaustMsg m = true) := by
  intro entries
  induction entries with
  | nil =>
    intro i st h
    exact ⟨fun st' hok => by cases hok; exact h, fun m hm => by cases hm⟩
  | cons e rest ih =>
    intro i st h
    simp only [buildGo]
    cases hpe : processEntry base (draw i) st e with
    | error m =>
      refine ⟨fun st' hok => (by cases hok), fun m' hm => ?_⟩
      cases hm
      exact (processEntry_inv base (draw i) st e h).2 m hpe
    | ok st1 =>
      exact ih (i + 1) st1 ((processEntry_inv base (draw i) st e h).1 st1 hpe)

lemma allocInv_init : allocInv ⟨[], [], []⟩ := by
  unfold allocInv
  exact ⟨by simp, rfl, rfl⟩

/-- C1 (amended): on every run and for every draw oracle, each numeric value
issued on the allocation path (any type but the top-level `Patient`) is fresh
with respect to every value issued before it, of any type; when the probing
loop exhausts a range the run aborts with an error message naming that entity
type.  (The `Patient` value, taken directly from the caller, is recorded with
no freshness check — see the counterexample.) -/
theorem c1_allocator_global_uniqueness (base : Nat) (draw : Nat → Nat)
    (bundle : List Entry) :
    allocFreshOk (buildUuidMapping base draw bundle) = true := by
  obtain ⟨hok, herr⟩ := buildGo_inv base draw bundle 0 ⟨[], [], []⟩ allocInv_init
  cases hres : buildUuidMapping base draw bundle with
  | ok st => exact (hok st hres).2.1
  | error m => exact herr m hres

/-- C6 (amended): every identifier issued by the allocation path carries a
numeric value inside its type's configured `[lo, hi]` range; the top-level
`Patient` identifier is the caller-supplied value and is not constrained by
the range (see the counterexample). -/
theorem c6_range_containment (base : Nat) (draw : Nat → Nat)
    (bundle : List Entry) :
    allocRangeOk (buildUuidMapping base draw bundle) = true := by
  obtain ⟨hok, _⟩ := buildGo_inv base draw bundle 0 ⟨[], [], []⟩ allocInv_init
  cases hres : buildUuidMapping base draw bundle with
  | ok st => exact (hok st hres).2.2
  | error m => rfl

/-- Counterexample to C1 as stated: with caller-supplied patient id 10100000
and a draw that lands the Encounter on 10100000, the run succeeds silently
and issues the numeric value 10100000 twice — the `Patient` branch records
the caller value with no freshness check. -/
theorem c1_allocator_global_uniqueness_counterexample :
    c1ClaimHolds (buildUuidMapping 10100000 drawZero c1CexBundle) = false ∧
      (buildUuidMapping 10100000 drawZero c1CexBundle).toOption.isSome = true := by
  decide

/-- Counterexample to C6 as stated: with the script's default patient id
995000, the Patient resource receives `t995000`, whose numeric value 995000
lies outside the configured Patient range `[10000000, 10000000]`. -/
theorem c6_range_containment_counterexample :
    c6ClaimHolds (buildUuidMapping 995000 drawZero c6CexBundle) = false ∧
      (buildUuidMapping 995000 drawZero c6CexBundle).toOption.isSome = true := by
  decide

/-- C3 (amended): the re-index skip tests for a *purely numeric* identity
(Python `resource_id.isdigit()`): an entry whose id is a nonempty all-digit
string allocates nothing and leaves the state unchanged.  `'t'`-prefixed
synthetic identifiers do not pass this test and are re-indexed, so a second
run over an already-rewritten document set remaps them (see the
counterexample): remapping is not idempotent. -/
theorem c3_skip_only_all_digit_ids (base draw : Nat) (st : BState) (e : Entry)
    (d : Str) (hid : e.resource.id = some d) (hne : d ≠ [])
    (hdig : d.all Char.isDigit = true) :
    processEntry base draw st e = .ok st := by
  unfold processEntry
  cases hrt : e.resource.resourceType with
  | none => rfl
  | some rt =>
    rw [hid]
    dsimp only
    by_cases hh1 : rt = [] ∨ d = []
    · rw [if_pos hh1]
    · rw [if_neg hh1]
      have hd : isdigitStr d = true := by
        simp [isdigitStr, hne, hdig]
      rw [if_pos hd]

/-- Witness for `c3_skip_only_all_digit_ids`: a Claim whose id is the digit
string `12345` is skipped. -/
theorem c3_skip_only_all_digit_ids_witness :
    processEntry 995000 0 ⟨[], [], []⟩
      ⟨⟨some "Claim".toList, some "12345".toList, []⟩, none, none⟩ =
      .ok ⟨[], [], []⟩ :=
  c3_skip_only_all_digit_ids 995000 0 ⟨[], [], []⟩
    ⟨⟨some "Claim".toList, some "12345".toList, []⟩, none, none⟩
    "12345".toList rfl (by decide) (by decide)

/-- Counterexample to C3 as stated: re-indexing an already-rewritten bundle
re-maps the synthetic id `t10100000` to a fresh, different identifier
(`t10100001` under draw 1), so a second rewriting pass changes the document
set. -/
theorem c3_skip_only_all_digit_ids_counterexample :
    c3ClaimHolds (buildUuidMapping 995000 drawOne c3CexBundle) = false ∧
      (match buildUuidMapping 995000 drawOne c3CexBundle with
        | .ok st => dictLookup st.uuidMap "t10100000".toList
        | .error _ => none) =
        some ("t10100001".toList, "Encounter".toList) := by
  decide

lemma dictLookup_set_ne (m : List (Str × Str × Str)) (key : Str) (val : Str × Str)
    (k : Str) (h : k ≠ key) :
    dictLookup (dictSet m key val) k = dictLookup m k := by
  induction m with
  | nil =>
    simp only [dictSet, dictLookup]
    rw [if_neg (fun hc => h hc.symm)]
  | cons p rest ih =>
    simp only [dictSet]
    by_cases hp : p.1 = key
    · rw [if_pos hp]
      simp only [dictLookup]
      rw [if_neg (fun hc => h hc.symm), if_neg (by rw [hp]; exact fun hc => h hc.symm)]
    · rw [if_neg hp]
      simp only [dictLookup]
      by_cases hk : p.1 = k
      · rw [if_pos hk, if_pos hk]
      · rw [if_neg hk, if_neg hk]
        exact ih

lemma identFold_keeps (idents : List Identifier) (aid rt : Str) :
    ∀ (m : List (Str × Str × Str)) (k : Str) (val : Str × Str),
      dictLookup m k = some val →
      dictLookup (idents.foldl (identStep aid rt) m) k = some val := by
  induction idents with
  | nil => intro m k val h; exact h
  | cons i rest ih =>
    intro m k val h
    rw [List.foldl_cons]
    apply ih
    unfold identStep
    by_cases hg : (i.value.getD [] ≠ [] ∧ dictMem m (i.value.getD []) = false)
    · rw [if_pos hg]
      have hne : k ≠ i.value.getD [] := by
        intro he
        rw [← he] at hg
        rw [dictMem, h] at hg
        simp at hg
      rw [dictLookup_set_ne m _ _ k hne]
      exact h
    · rw [if_neg hg]
      exact h

/-- C7 (amended): during indexing, an existing mapping entry for a key `k` is
never overwritten by the natural-key pass (a value already present is
skipped), nor by any other entity — *except* that a later entity whose own
resource id equals `k` overwrites it unconditionally (see the
counterexample).  Formally: processing an entry whose resource id is not `k`
preserves `k`'s binding. -/
theorem c7_mapping_no_overwrite (base draw : Nat) (st st' : BState) (e : Entry)
    (k : Str) (val : Str × Str)
    (hlk : dictLookup st.uuidMap k = some val)
    (hne : e.resource.id ≠ some k)
    (hok : processEntry base draw st e = .ok st') :
    dictLookup st'.uuidMap k = some val := by
  unfold processEntry at hok
  cases hrt : e.resource.resourceType with
  | none =>
    rw [hrt] at hok
    cases hok
    exact hlk
  | some rt =>
    cases hid : e.resource.id with
    | none =>
      rw [hrt, hid] at hok
      cases hok
      exact hlk
    | some rid =>
      have hridk : k ≠ rid := fun hc => hne (by rw [hid, ← hc])
      rw [hrt, hid] at hok
      dsimp only at hok
      by_cases hh1 : rt = [] ∨ rid = []
      · rw [if_pos hh1] at hok
        cases hok
        exact hlk
      · rw [if_neg hh1] at hok
        by_cases hh2 : isdigitStr rid = true
        · rw [if_pos hh2] at hok
          cases hok
          exact hlk
        · rw [if_neg hh2] at hok
          cases hrf : rangesFind rt with
          | none =>
            rw [hrf] at hok
            cases hok
            exact hlk
          | some p =>
            obtain ⟨lo, hi⟩ := p
            rw [hrf] at hok
            dsimp only at hok
            have hrec : ∀ numeric,
                dictLookup (recordAlloc st rt rid numeric e.resource.identifier).uuidMap k =
                  some val := by
              intro numeric
              unfold recordAlloc
              apply identFold_keeps
              rw [dictLookup_set_ne st.uuidMap rid _ k hridk]
              exact hlk
            by_cases hpat : rt = "Patient".toList
            · rw [if_pos hpat] at hok
              cases hok
              exact hrec base
            · rw [if_neg hpat] at hok
              cases hpr : probe st.allUsed lo (hi - lo + 1) (draw % (hi - lo + 1))
                  (hi - lo + 1) 0 with
              | none =>
                rw [hpr] at hok
                cases hok
              | some n =>
                rw [hpr] at hok
                cases hok
                exact hrec n

/-- Witness for `c7_mapping_no_overwrite`: processing a Claim with id `bbb`
leaves the existing binding of `aaa` untouched. -/
theorem c7_mapping_no_overwrite_witness :
    dictLookup c7St1.uuidMap "aaa".toList = some ("t1".toList, "Claim".toList) :=
  c7_mapping_no_overwrite 995000 0 c7St0 c7St1 c7Entry "aaa".toList
    ("t1".toList, "Claim".toList) (by decide) (by decide) (by decide)

/-- Counterexample to C7 as stated: a bundle containing the same original
identity twice.  After the first entry the key `dup-1` is bound to
`t260000000` (the run on the one-entry prefix computes exactly the
intermediate state of the two-entry run, since processing is a left fold);
by the end of the two-entry run the same key has been re-bound to the
different identifier `t260000001` — `uuid_map[resource_id] = ...` overwrites
unconditionally. -/
theorem c7_mapping_no_overwrite_counterexample :
    c7BindingOf (buildUuidMapping 995000 drawZero [c7CexEntry]) =
      some ("t260000000".toList, "Claim".toList) ∧
    c7BindingOf (buildUuidMapping 995000 drawZero [c7CexEntry, c7CexEntry]) =
      some ("t260000001".toList, "Claim".toList) := by
  decide

/-- C8: for every bundle entry whose resource id is rewritten by the mapping
and whose persistence directive is POST, `convert_all_ids` flips the
directive to PUT, sets the target locator to `ResourceType/new_identifier`,
and removes the entry's `fullUrl`.  (`convertAllIds` maps this function over
every entry of the bundle.) -/
theorem c8_post_becomes_put (um : List (Str × Str × Str)) (e : Entry)
    (rid nid ty rt : Str) (req : Request)
    (hid : e.resource.id = some rid)
    (hlk : dictLookup um rid = some (nid, ty))
    (hreq : e.request = some req)
    (hmethod : req.method = some ("POST".toList))
    (hrt : e.resource.resourceType = some rt) :
    convertEntry um e =
      { resource := { e.resource with id := some nid }
        request := some { req with
                          method := some ("PUT".toList)
                          url := some (rt ++ '/' :: nid) }
        fullUrl := none } := by
  unfold convertEntry
  rw [hid]
  dsimp only
  rw [hlk]
  dsimp only
  rw [hreq]
  dsimp only
  rw [if_pos hmethod]
  rw [show pyFmtOpt e.resource.resourceType = rt by rw [hrt]; rfl]

/-- Witness for `c8_post_becomes_put` at a concrete entry. -/
theorem c8_post_becomes_put_witness :
    convertEntry c8Um c8Entry =
      ⟨⟨some "Observation".toList, some "t123".toList, []⟩,
        some ⟨some "PUT".toList, some "Observation/t123".toList⟩, none⟩ := by
  have h := c8_post_becomes_put c8Um c8Entry "u-77".toList "t123".toList
    "Observation".toList "Observation".toList c8Req rfl (by decide) rfl (by decide) rfl
  rw [h]
  decide

lemma scanEntry_seen_dups (sc : VScan) (e : Entry) :
    (∀ rid, e.resource.id = some rid → rid ≠ [] →
      (scanEntry sc e).dups =
          (if rid ∈ sc.seen then sc.dups ++ [(e.resource.resourceType.getD ("Unknown".toList)) ++ '/' :: rid] else sc.dups) ∧
        (scanEntry sc e).seen =
          (if rid ∈ sc.seen then sc.seen else sc.seen ++ [rid])) ∧
    ((e.resource.id = none ∨ e.resource.id = some []) →
      (scanEntry sc e).dups = sc.dups ∧ (scanEntry sc e).seen = sc.seen) := by
  constructor
  · intro rid hid hne
    unfold scanEntry
    rw [hid]
    dsimp only
    rw [if_neg hne]
    by_cases h1 : rid.length = 36 ∧ rid.count '-' = 4
    · rw [if_pos h1]
      by_cases h2 : e.resource.resourceType.getD ("Unknown".toList) ≠ "Medication".toList
      · rw [if_pos h2]
        exact ⟨rfl, rfl⟩
      · rw [if_neg h2]
        exact ⟨rfl, rfl⟩
    · rw [if_neg h1]
      by_cases h3 : startsWithT rid || startsWithAminus rid
      · rw [if_pos h3]
        exact ⟨rfl, rfl⟩
      · rw [if_neg h3]
        exact ⟨rfl, rfl⟩
  · intro hid
    unfold scanEntry
    rcases hid with hid | hid
    · rw [hid]
      exact ⟨rfl, rfl⟩
    · rw [hid]
      dsimp only
      rw [if_pos rfl]
      exact ⟨rfl, rfl⟩

lemma scan_dups_empty_iff (bundle : List Entry) :
    ∀ sc : VScan,
      ((bundle.foldl scanEntry sc).dups = [] ↔
        sc.dups = [] ∧ (presentIds bundle).Nodup ∧
          ∀ x ∈ presentIds bundle, x ∉ sc.seen) := by
  induction bundle with
  | nil =>
    intro sc
    simp [presentIds]
  | cons e rest ih =>
    intro sc
    rw [List.foldl_cons]
    obtain ⟨hsome, hnone⟩ := scanEntry_seen_dups sc e
    cases hid : e.resource.id with
    | none =>
      obtain ⟨hd, hs⟩ := hnone (Or.inl hid)
      have hpres : presentIds (e :: rest) = presentIds rest := by
        simp [presentIds, List.filterMap_cons, hid]
      rw [hpres, ih (scanEntry sc e), hd, hs]
    | some rid =>
      by_cases hne : rid = []
      · subst hne
        obtain ⟨hd, hs⟩ := hnone (Or.inr hid)
        have hpres : presentIds (e :: rest) = presentIds rest := by
          simp [presentIds, List.filterMap_cons, hid]
        rw [hpres, ih (scanEntry sc e), hd, hs]
      · obtain ⟨hd, hs⟩ := hsome rid hid hne
        have hpres : presentIds (e :: rest) = rid :: presentIds rest := by
          simp [presentIds, List.filterMap_cons, hid, hne]
        rw [hpres, ih (scanEntry sc e), hd, hs]
        by_cases hmem : rid ∈ sc.seen
        · rw [if_pos hmem, if_pos hmem]
          constructor
          · rintro ⟨hcontra, -⟩
            exact absurd hcontra (by simp)
          · rintro ⟨-, -, hall⟩
            exact absurd hmem (hall rid (List.mem_cons_self _ _))
        · rw [if_neg hmem, if_neg hmem]
          constructor
          · rintro ⟨h1, h2, h3⟩
            refine ⟨h1, ?_, ?_⟩
            · rw [List.nodup_cons]
              refine ⟨fun hc => ?_, h2⟩
              have := h3 rid hc
              simp at this
            · intro x hx
              rcases List.mem_cons.mp hx with hx | hx
              · rw [hx]
                exact hmem
              · have := h3 x hx
                simp only [List.mem_append, List.mem_singleton] at this
                push_neg at this
                exact this.1
          · rintro ⟨h1, h2, h3⟩
            refine ⟨h1, (List.nodup_cons.mp h2).2, ?_⟩
            intro x hx
            simp only [List.mem_append, List.mem_singleton]
            push_neg
            constructor
            · exact h3 x (List.mem_cons_of_mem _ hx)
            · intro hc
              rw [hc] at hx
              exact (List.nodup_cons.mp h2).1 hx

/-- C9 (amended): the Validator's resource-ID check passes exactly when the
present resource ids are pairwise distinct; leftover original-identity (UUID
shaped) ids are collected into `uuidResources` but produce only a warning and
never make the check fail (see the counterexample). -/
theorem c9_resource_id_check_passes_iff_nodup (bundle : List Entry) :
    (validateResourceIds bundle).passed = true ↔ (presentIds bundle).Nodup := by
  unfold validateResourceIds
  dsimp only
  have hiff := scan_dups_empty_iff bundle ⟨[], [], [], 0, 0, 0⟩
  simp only [List.not_mem_nil, not_false_iff, implies_true, and_true, true_and] at hiff
  by_cases hdup : (bundle.foldl scanEntry ⟨[], [], [], 0, 0, 0⟩).dups = []
  · have hempty : (bundle.foldl scanEntry ⟨[], [], [], 0, 0, 0⟩).dups.isEmpty = true := by
      rw [hdup]; rfl
    rw [hempty]
    simp only [true_and]
    constructor
    · intro _
      exact hiff.mp hdup
    · intro _
      split <;> rfl
  · have hempty : (bundle.foldl scanEntry ⟨[], [], [], 0, 0, 0⟩).dups.isEmpty = false := by
      cases hd : (bundle.foldl scanEntry ⟨[], [], [], 0, 0, 0⟩).dups with
      | nil => exact absurd hd hdup
      | cons a b => rfl
    rw [hempty]
    simp only [Bool.false_eq_true, false_and, if_false]
    constructor
    · intro hc
      exact absurd hc (by simp)
    · intro hnd
      exact absurd (hiff.mpr hnd) hdup

/-- Counterexample to C9 as stated: a bundle whose (non-exempt) Encounter
still carries a UUID-shaped id.  The claim says the resource-ID check fails;
in the code the leftover UUID only lands in the warning list `uuidResources`
and the check passes, so nothing blocks the run's exit status. -/
theorem c9_resource_id_check_counterexample :
    (validateResourceIds c9CexBundle).uuidResources ≠ [] ∧
      (validateResourceIds c9CexBundle).passed = true := by
  decide

lemma takeWhile_all (p : Char → Bool) (l : Str) (h : ∀ a ∈ l, p a = true) :
    l.takeWhile p = l := by
  have := @List.takeWhile_append_of_pos Char p l [] h
  simpa using this

lemma takeWhile_all_append (p : Char → Bool) (t : Str) (ht : ∀ a ∈ t, p a = true)
    (c : Char) (hc : p c = false) (rest : Str) :
    (t ++ c :: rest).takeWhile p = t := by
  rw [List.takeWhile_append]
  rw [takeWhile_all p t ht]
  rw [if_pos rfl]
  rw [List.takeWhile_cons_of_neg (by rw [hc]; exact fun hcc => by cases hcc)]
  simp

lemma takeWhile_append_stop (p : Char → Bool) (t y : Str)
    (h : (t.takeWhile p).length ≠ t.length) :
    (t ++ y).takeWhile p = t.takeWhile p := by
  rw [List.takeWhile_append, if_neg h]

/-- A scan pattern that contains no `'?'` but a non-alphabetic character can
never prefix-match inside an all-alphabetic run followed by `'?'`. -/
lemma pattern_not_in_alpha_run :
    ∀ (T pat rest : Str), ('?' ∉ pat) → (∃ c ∈ pat, isAlphaChar c = false) →
      (∀ a ∈ T, isAlphaChar a = true) →
      ¬ pat.isPrefixOf (T ++ '?' :: rest) = true := by
  intro T
  induction T with
  | nil =>
    intro pat rest hq hw _ hpre
    obtain ⟨c, hcmem, _⟩ := hw
    cases pat with
    | nil => cases hcmem
    | cons p ps =>
      have := (List.cons_prefix_cons.mp (List.isPrefixOf_iff_prefix.mp hpre)).1
      rw [this] at hq
      exact hq (List.mem_cons_self _ _)
  | cons a T' ih =>
    intro pat rest hq hw hT hpre
    obtain ⟨c, hcmem, hcna⟩ := hw
    cases pat with
    | nil => cases hcmem
    | cons p ps =>
      obtain ⟨hpa, hps⟩ := List.cons_prefix_cons.mp (List.isPrefixOf_iff_prefix.mp hpre)
      rcases List.mem_cons.mp hcmem with hcp | hcps
      · have ha : isAlphaChar a = true := hT a (List.mem_cons_self _ _)
        rw [hcp, hpa] at hcna
        rw [hcna] at ha
        cases ha
      · exact ih ps rest (fun hmem => hq (List.mem_cons_of_mem _ hmem)) ⟨c, hcps, hcna⟩
          (fun x hx => hT x (List.mem_cons_of_mem _ hx))
          (List.isPrefixOf_iff_prefix.mpr hps)

lemma identValueAt_concat (sys v : Str) (hsys : sys ≠ []) (hsysp : '|' ∉ sys)
    (hv : v ≠ []) (hvn : '\n' ∉ v) :
    identValueAt (sys ++ '|' :: v) = some v := by
  unfold identValueAt
  have hg1 : (sys ++ '|' :: v).takeWhile (fun c => c ≠ '|') = sys := by
    apply takeWhile_all_append
    · intro a ha
      simp only [decide_eq_true_eq]
      exact fun hc => hsysp (hc ▸ ha)
    · simp
  rw [hg1]
  dsimp only
  rw [if_neg (by simp [hsys])]
  rw [List.drop_left sys ('|' :: v)]
  have hval : v.takeWhile (fun c => c ≠ '\n') = v := by
    apply takeWhile_all
    intro a ha
    simp only [decide_eq_true_eq]
    exact fun hc => hvn (hc ▸ ha)
  dsimp only
  rw [if_pos rfl]
  rw [hval]
  rw [if_neg (by simp [hv])]

lemma searchIdentValue_concat :
    ∀ (T : Str) (sys v : Str), (∀ a ∈ T, isAlphaChar a = true) →
      sys ≠ [] → '|' ∉ sys → v ≠ [] → '\n' ∉ v →
      searchIdentValue (T ++ '?' :: ("identifier=".toList ++ sys ++ '|' :: v)) = some v := by
  intro T
  induction T with
  | nil =>
    intro sys v _ hsys hsysp hv hvn
    rw [List.nil_append]
    have hstep : searchIdentValue ('?' :: ("identifier=".toList ++ sys ++ '|' :: v)) =
        searchIdentValue ("identifier=".toList ++ sys ++ '|' :: v) := by
      simp only [searchIdentValue]
      rw [if_neg ?hneg]
      case hneg =>
        intro hc
        have := (List.cons_prefix_cons.mp (List.isPrefixOf_iff_prefix.mp hc)).1
        cases this
    rw [hstep]
    obtain ⟨c0, tail0, hsplit⟩ : ∃ c0 tail0,
        ("identifier=".toList ++ sys ++ '|' :: v) = c0 :: tail0 := ⟨_, _, rfl⟩
    rw [hsplit]
    simp only [searchIdentValue]
    rw [← hsplit]
    rw [if_pos (List.isPrefixOf_iff_prefix.mpr (by
      rw [show ("identifier=".toList ++ sys ++ '|' :: v) =
        "identifier=".toList ++ (sys ++ '|' :: v) from by simp [List.append_assoc]]
      exact List.prefix_append _ _))]
    rw [show ("identifier=".toList ++ sys ++ '|' :: v).drop ("identifier=".toList).length =
      sys ++ '|' :: v from by
        rw [show ("identifier=".toList ++ sys ++ '|' :: v) =
          "identifier=".toList ++ (sys ++ '|' :: v) from by simp [List.append_assoc]]
        exact List.drop_left _ _]
    rw [identValueAt_concat sys v hsys hsysp hv hvn]
  | cons a T' ih =>
    intro sys v hT hsys hsysp hv hvn
    rw [List.cons_append]
    simp only [searchIdentValue]
    rw [if_neg (show ¬ ("identifier=".toList.isPrefixOf
        (a :: (T' ++ '?' :: ("identifier=".toList ++ sys ++ '|' :: v))) = true) from by
      have hrun := pattern_not_in_alpha_run (a :: T') "identifier=".toList
        ("identifier=".toList ++ sys ++ '|' :: v)
        (by decide) ⟨'=', by decide, by decide⟩ hT
      simpa [List.cons_append] using hrun)]
    exact ih sys v (fun x hx => hT x (List.mem_cons_of_mem _ hx)) hsys hsysp hv hvn

lemma parseConditional_concat (T : Str) (hT : T ≠ [])
    (hTa : ∀ a ∈ T, isAlphaChar a = true) (X : Str) :
    parseConditional (T ++ '?' :: ("identifier=".toList ++ X)) = some T := by
  unfold parseConditional
  have h1 : (T ++ '?' :: ("identifier=".toList ++ X)).takeWhile isAlphaChar = T :=
    takeWhile_all_append _ T hTa '?' (by decide) _
  dsimp only
  rw [h1]
  rw [if_pos ?hc]
  case hc =>
    refine ⟨hT, ?_⟩
    rw [List.drop_left T ('?' :: ("identifier=".toList ++ X))]
    apply List.isPrefixOf_iff_prefix.mpr
    rw [show ("?identifier=".toList : Str) = '?' :: "identifier=".toList from rfl]
    exact List.cons_prefix_cons.mpr ⟨rfl, List.prefix_append _ _⟩

lemma parseConditional_urn (u : Str) :
    parseConditional ("urn:uuid:".toList ++ u) = none := by
  unfold parseConditional
  have h1 : ("urn:uuid:".toList ++ u).takeWhile isAlphaChar = "urn".toList := by
    rw [takeWhile_append_stop isAlphaChar "urn:uuid:".toList u (by decide)]
    decide
  dsimp only
  rw [h1]
  rw [if_neg ?hc]
  case hc =>
    rintro ⟨-, hp⟩
    rw [show ("urn".toList : Str).length = 3 from rfl] at hp
    rw [List.drop_append_of_le_length (by decide)] at hp
    rw [show ("urn:uuid:".toList : Str).drop 3 ++ u = ':' :: ("uuid:".toList ++ u) from rfl] at hp
    have := (List.cons_prefix_cons.mp (List.isPrefixOf_iff_prefix.mp hp)).1
    cases this

lemma parseConditional_typed (T : Str) (hTa : ∀ a ∈ T, isAlphaChar a = true) (u : Str) :
    parseConditional (T ++ '/' :: u) = none := by
  unfold parseConditional
  have h1 : (T ++ '/' :: u).takeWhile isAlphaChar = T :=
    takeWhile_all_append _ T hTa '/' (by decide) _
  dsimp only
  rw [h1]
  rw [if_neg ?hc]
  case hc =>
    rintro ⟨-, hp⟩
    rw [List.drop_left T ('/' :: u)] at hp
    have := (List.cons_prefix_cons.mp (List.isPrefixOf_iff_prefix.mp hp)).1
    cases this

lemma not_urn_of_typed (T : Str) (hT : T ≠ [])
    (hTa : ∀ a ∈ T, isAlphaChar a = true) (u : Str) :
    ¬ ("urn:uuid:".toList).isPrefixOf (T ++ '/' :: u) = true := by
  intro hp
  have hpre := List.isPrefixOf_iff_prefix.mp hp
  rw [show ("urn:uuid:".toList : Str) =
    'u' :: 'r' :: 'n' :: ':' :: "uuid:".toList from rfl] at hpre
  match T, hT with
  | [a], _ =>
    rw [show ([a] : Str) ++ '/' :: u = a :: '/' :: u from rfl] at hpre
    obtain ⟨-, h2⟩ := List.cons_prefix_cons.mp hpre
    obtain ⟨h3, -⟩ := List.cons_prefix_cons.mp h2
    cases h3
  | [a, b], _ =>
    rw [show ([a, b] : Str) ++ '/' :: u = a :: b :: '/' :: u from rfl] at hpre
    obtain ⟨-, h2⟩ := List.cons_prefix_cons.mp hpre
    obtain ⟨-, h3⟩ := List.cons_prefix_cons.mp h2
    obtain ⟨h4, -⟩ := List.cons_prefix_cons.mp h3
    cases h4
  | [a, b, c], _ =>
    rw [show ([a, b, c] : Str) ++ '/' :: u = a :: b :: c :: '/' :: u from rfl] at hpre
    obtain ⟨-, h2⟩ := List.cons_prefix_cons.mp hpre
    obtain ⟨-, h3⟩ := List.cons_prefix_cons.mp h2
    obtain ⟨-, h4⟩ := List.cons_prefix_cons.mp h3
    obtain ⟨h5, -⟩ := List.cons_prefix_cons.mp h4
    cases h5
  | a :: b :: c :: d :: T4, _ =>
    rw [show ((a :: b :: c :: d :: T4 : Str) ++ '/' :: u) =
      a :: b :: c :: d :: (T4 ++ '/' :: u) from rfl] at hpre
    obtain ⟨-, h2⟩ := List.cons_prefix_cons.mp hpre
    obtain ⟨-, h3⟩ := List.cons_prefix_cons.mp h2
    obtain ⟨-, h4⟩ := List.cons_prefix_cons.mp h3
    obtain ⟨h5, -⟩ := List.cons_prefix_cons.mp h4
    have hd : isAlphaChar d = true := hTa d (by simp)
    rw [← h5] at hd
    cases hd

lemma parseUrn_concat (u : Str) (hu : u ≠ [])
    (hua : ∀ a ∈ u, isWordHyphen a = true) :
    parseUrn ("urn:uuid:".toList ++ u) = some u := by
  unfold parseUrn
  rw [if_pos (List.isPrefixOf_iff_prefix.mpr (List.prefix_append _ _))]
  dsimp only
  rw [List.drop_left "urn:uuid:".toList u]
  rw [takeWhile_all isWordHyphen u hua]
  rw [if_pos hu]

lemma parseUrn_typed (T : Str) (hT : T ≠ [])
    (hTa : ∀ a ∈ T, isAlphaChar a = true) (u : Str) :
    parseUrn (T ++ '/' :: u) = none := by
  unfold parseUrn
  rw [if_neg (not_urn_of_typed T hT hTa u)]

lemma parseTyped_concat (T : Str) (hT : T ≠ [])
    (hTa : ∀ a ∈ T, isAlphaChar a = true) (u : Str) (hu : u ≠ [])
    (hua : ∀ a ∈ u, isWordHyphen a = true) :
    parseTyped (T ++ '/' :: u) = some (T, u) := by
  unfold parseTyped
  have h1 : (T ++ '/' :: u).takeWhile isAlphaChar = T :=
    takeWhile_all_append _ T hTa '/' (by decide) _
  dsimp only
  rw [h1]
  rw [List.drop_left T ('/' :: u)]
  dsimp only
  rw [if_pos rfl]
  rw [takeWhile_all isWordHyphen u hua]
  rw [if_pos ⟨hT, hu⟩]

/-- C4: a query-style reference `Type?identifier=system|value` on an object's
`reference` field.  If `value` is mapped, the whole field is replaced by
`Type/assigned_identifier` and both the reference counter and the
conditional-reference counter gain one; if `value` is unmapped, the object is
returned byte-for-byte unchanged and neither counter moves (and, the model
being total on this path, no exception is raised). -/
theorem c4_conditional_reference_rewrite (um : List (Str × Str × Str))
    (fs : JFields) (T sys v : Str)
    (hT : T ≠ []) (hTa : ∀ a ∈ T, isAlphaChar a = true)
    (hsys : sys ≠ []) (hsysp : '|' ∉ sys)
    (hv : v ≠ []) (hvn : '\n' ∉ v)
    (href : getRefString fs = some (T ++ '?' :: ("identifier=".toList ++ sys ++ '|' :: v))) :
    (∀ nid ty, dictLookup um v = some (nid, ty) →
      updateRef um (.obj fs) = (.obj (setRefString fs (T ++ '/' :: nid)), 1, 1)) ∧
    (dictLookup um v = none → updateRef um (.obj fs) = (.obj fs, 0, 0)) := by
  have hcond : parseConditional (T ++ '?' :: ("identifier=".toList ++ sys ++ '|' :: v)) =
      some T := by
    have := parseConditional_concat T hT hTa (sys ++ '|' :: v)
    simpa [List.append_assoc] using this
  have hsearch : searchIdentValue (T ++ '?' :: ("identifier=".toList ++ sys ++ '|' :: v)) =
      some v := searchIdentValue_concat T sys v hTa hsys hsysp hv hvn
  constructor
  · intro nid ty hlk
    have hclass : classifyRef um (T ++ '?' :: ("identifier=".toList ++ sys ++ '|' :: v)) =
        .condRewrite (T ++ '/' :: nid) := by
      unfold classifyRef
      rw [hcond]
      dsimp only
      rw [hsearch]
      dsimp only
      rw [hlk]
    show updateRef um (.obj fs) = _
    unfold updateRef
    rw [href]
    dsimp only
    rw [hclass]
  · intro hlk
    have hclass : classifyRef um (T ++ '?' :: ("identifier=".toList ++ sys ++ '|' :: v)) =
        .condSkip := by
      unfold classifyRef
      rw [hcond]
      dsimp only
      rw [hsearch]
      dsimp only
      rw [hlk]
    show updateRef um (.obj fs) = _
    unfold updateRef
    rw [href]
    dsimp only
    rw [hclass]

/-- Witness for `c4_conditional_reference_rewrite`: the spec's scenario 3
(`B?identifier=system|uuid-5` with `uuid-5 ↦ t777` becomes `B/t777`, both
counters up) and scenario 4 (unmapped `uuid-9`: unchanged, counters still). -/
theorem c4_conditional_reference_rewrite_witness :
    updateRef c4Um (.obj c4Fields) =
      (.obj (setRefString c4Fields "B/t777".toList), 1, 1) ∧
    updateRef c4Um (.obj c4FieldsMiss) = (.obj c4FieldsMiss, 0, 0) := by
  constructor
  · exact (c4_conditional_reference_rewrite c4Um c4Fields "B".toList "system".toList
      "uuid-5".toList (by decide) (by decide) (by decide) (by decide) (by decide)
      (by decide) (by decide)).1 "t777".toList "B".toList (by decide)
  · exact (c4_conditional_reference_rewrite c4Um c4FieldsMiss "B".toList "system".toList
      "uuid-9".toList (by decide) (by decide) (by decide) (by decide) (by decide)
      (by decide) (by decide)).2 (by decide)

/-- C5: the two link encodings resolve asymmetrically.  A mapped direct-link
reference `urn:uuid:u` is replaced by `mapped_type/assigned_identifier`, the
type coming from the mapping; a mapped type-qualified reference `T/u` is
replaced by `T/assigned_identifier`, keeping the caller-stated `T` even when
it differs from the mapped type (no hypothesis relates `T` and `tm`). -/
theorem c5_link_type_asymmetry (um : List (Str × Str × Str))
    (u nid tm T : Str)
    (hu : u ≠ []) (hua : ∀ a ∈ u, isWordHyphen a = true)
    (hT : T ≠ []) (hTa : ∀ a ∈ T, isAlphaChar a = true)
    (hlk : dictLookup um u = some (nid, tm)) :
    updateRef um (.obj (.fcons refKey (.str ("urn:uuid:".toList ++ u)) .fnil)) =
      (.obj (.fcons refKey (.str (tm ++ '/' :: nid)) .fnil), 1, 0) ∧
    updateRef um (.obj (.fcons refKey (.str (T ++ '/' :: u)) .fnil)) =
      (.obj (.fcons refKey (.str (T ++ '/' :: nid)) .fnil), 1, 0) := by
  constructor
  · have hclass : classifyRef um ("urn:uuid:".toList ++ u) =
        .plain (tm ++ '/' :: nid) 1 := by
      unfold classifyRef
      rw [parseConditional_urn u]
      dsimp only
      rw [parseUrn_concat u hu hua]
      dsimp only
      rw [hlk]
    unfold updateRef
    rw [show getRefString (.fcons refKey (.str ("urn:uuid:".toList ++ u)) .fnil) =
      some ("urn:uuid:".toList ++ u) from by unfold getRefString; rw [if_pos rfl]]
    dsimp only
    rw [hclass]
    dsimp only
    unfold updateFields
    rw [if_pos rfl]
    rfl
  · have hclass : classifyRef um (T ++ '/' :: u) = .plain (T ++ '/' :: nid) 1 := by
      unfold classifyRef
      rw [parseConditional_typed T hTa u]
      dsimp only
      rw [parseUrn_typed T hT hTa u]
      dsimp only
      rw [parseTyped_concat T hT hTa u hu hua]
      dsimp only
      rw [hlk]
    unfold updateRef
    rw [show getRefString (.fcons refKey (.str (T ++ '/' :: u)) .fnil) =
      some (T ++ '/' :: u) from by unfold getRefString; rw [if_pos rfl]]
    dsimp only
    rw [hclass]
    dsimp only
    unfold updateFields
    rw [if_pos rfl]
    rfl

/-- Witness for `c5_link_type_asymmetry` at a caller-stated type
(`Condition`) that differs from the mapped type (`Observation`): the
direct-link form resolves to `Observation/t42`, the type-qualified form to
`Condition/t42`. -/
theorem c5_link_type_asymmetry_witness :
    updateRef c5Um (.obj (.fcons refKey (.str ("urn:uuid:".toList ++ "u1-x".toList)) .fnil)) =
      (.obj (.fcons refKey (.str ("Observation".toList ++ '/' :: "t42".toList)) .fnil), 1, 0) ∧
    updateRef c5Um (.obj (.fcons refKey (.str ("Condition".toList ++ '/' :: "u1-x".toList)) .fnil)) =
      (.obj (.fcons refKey (.str ("Condition".toList ++ '/' :: "t42".toList)) .fnil), 1, 0) :=
  c5_link_type_asymmetry c5Um "u1-x".toList "t42".toList "Observation".toList
    "Condition".toList (by decide) (by decide) (by decide) (by decide) (by decide)
